import Mathlib

/-!
# ITCH 5.0 "Market Participant Position" codec

A shallow embedding of `itch/5.0/participant_position.go`:

* `ParticipantPosition.Bytes`  — the encoder (26-byte wire record);
* `ParseParticipantPosition`   — the decoder, with its two side effects made
  explicit: the write into the caller's buffer and the append to the
  process-wide `MarketParticipants` registry;
* `MMMode.String`, `MMState.String` — the display of the two tag types.

Go values are embedded as follows.  A `byte` is a `Fin 256`, a `uint16` a
`Fin 65536`, a `string` / `[]byte` a `List Byte` (Go strings are byte
sequences), `time.Duration` (an `int64`) an `Int`, and integer conversions are
written out as explicit reductions modulo `2^w`.  A run-time panic of the
decoder (index or slice bound out of range) is the value `none`.

The standard-library routines the two functions call (`encoding/binary`,
`unicode/utf8`, `unicode.IsSpace`, `strings.TrimSpace`, the `%-Ns` verb of
`fmt`) are embedded from their Go definitions in the first part of the file.
-/

namespace Itch

/-! ## Bytes, slices -/

/-- A Go `byte`. -/
abbrev Byte := Fin 256

/-- A Go `uint16`. -/
abbrev Word16 := Fin 65536

/-- Go's conversion `byte(x)`: the low eight bits of `x`. -/
def byte (x : Nat) : Byte := ⟨x % 256, Nat.mod_lt x (by decide)⟩

/-- Go's conversion `uint16(x)`: the low sixteen bits of `x`. -/
def uint16 (x : Nat) : Word16 := ⟨x % 65536, Nat.mod_lt x (by decide)⟩

/-- Go's conversion `uint64(x)` of a signed 64-bit value: two's complement,
that is `x` modulo `2^64`. -/
def uint64 (x : Int) : Nat := (x % 2 ^ 64).toNat

/-- Go's conversion `int64(x)` (here `time.Duration(x)`) of an unsigned 64-bit
value: values from `2^63` on wrap to the negatives. -/
def int64 (x : Nat) : Int :=
  if x % 2 ^ 64 < 2 ^ 63 then ((x % 2 ^ 64 : Nat) : Int) else ((x % 2 ^ 64 : Nat) : Int) - 2 ^ 64

/-- The slice expression `b[lo:hi]`; `none` is the slice-bounds panic. -/
def slice (b : List Byte) (lo hi : Nat) : Option (List Byte) :=
  if lo ≤ hi ∧ hi ≤ b.length then some ((b.drop lo).take (hi - lo)) else none

/-- The indexed read `b[i]`; `none` is the index-out-of-range panic. -/
def index (b : List Byte) (i : Nat) : Option Byte := b[i]?

/-- The indexed write `b[i] = v`; `none` is the index-out-of-range panic. -/
def store (b : List Byte) (i : Nat) (v : Byte) : Option (List Byte) :=
  if i < b.length then some (b.set i v) else none

/-- The allocation `make([]byte, n)`: `n` zero bytes. -/
def make (n : Nat) : List Byte := List.replicate n 0

/-- The built-in `copy(data[lo:hi], src)` seen from `data`: the first
`min (hi - lo) (len src)` bytes of `src` land at offset `lo`. -/
def copy (data : List Byte) (lo hi : Nat) (src : List Byte) : List Byte :=
  let n := min (hi - lo) src.length
  data.take lo ++ src.take n ++ data.drop (lo + n)

/-! ## `encoding/binary`, big endian -/

/-- The call `binary.BigEndian.Uint16(b)`:
`uint16(b[1]) | uint16(b[0])<<8`, after the bounds check `_ = b[1]`. -/
def BigEndian.Uint16 (b : List Byte) : Option Word16 := do
  let b1 ← index b 1
  let b0 ← index b 0
  pure (uint16 (b1.val ||| (b0.val <<< 8)))

/-- The call `binary.BigEndian.Uint64(b)`, after the bounds check `_ = b[7]`. -/
def BigEndian.Uint64 (b : List Byte) : Option Nat := do
  let b7 ← index b 7
  let b6 ← index b 6
  let b5 ← index b 5
  let b4 ← index b 4
  let b3 ← index b 3
  let b2 ← index b 2
  let b1 ← index b 1
  let b0 ← index b 0
  pure ((b7.val ||| (b6.val <<< 8) ||| (b5.val <<< 16) ||| (b4.val <<< 24) |||
    (b3.val <<< 32) ||| (b2.val <<< 40) ||| (b1.val <<< 48) ||| (b0.val <<< 56)) % 2 ^ 64)

/-- The call `binary.BigEndian.PutUint16(data[lo:lo+2], v)` seen from `data`:
`b[0] = byte(v >> 8); b[1] = byte(v)`. -/
def BigEndian.PutUint16 (data : List Byte) (lo : Nat) (v : Word16) : List Byte :=
  (data.set (lo + 0) (byte (v.val >>> 8))).set (lo + 1) (byte v.val)

/-- The call `binary.BigEndian.PutUint64(data[lo:lo+8], v)` seen from `data`:
`b[0] = byte(v >> 56)`, ..., `b[7] = byte(v)`. -/
def BigEndian.PutUint64 (data : List Byte) (lo : Nat) (v : Nat) : List Byte :=
  ((((((((data.set (lo + 0) (byte (v >>> 56))).set (lo + 1) (byte (v >>> 48))).set
    (lo + 2) (byte (v >>> 40))).set (lo + 3) (byte (v >>> 32))).set
    (lo + 4) (byte (v >>> 24))).set (lo + 5) (byte (v >>> 16))).set
    (lo + 6) (byte (v >>> 8))).set (lo + 7) (byte v))

/-! ## `unicode/utf8` and `unicode.IsSpace` -/

/-- The constant `utf8.RuneError`, U+FFFD. -/
def RuneError : Nat := 0xFFFD

/-- The constant `utf8.RuneSelf`: bytes below it are runes of their own. -/
def RuneSelf : Nat := 0x80

/-- The constant `utf8.UTFMax`. -/
def UTFMax : Nat := 4

/-- The table `utf8.first`: per leading byte, `0xF0` (ASCII), `0xF1` (invalid),
or the sequence length in the low bits and the index of the accept range of
the second byte in the high bits. -/
def first (b : Byte) : Nat :=
  if b.val < 0x80 then 0xF0
  else if b.val < 0xC2 then 0xF1
  else if b.val < 0xE0 then 0x02
  else if b.val = 0xE0 then 0x13
  else if b.val < 0xED then 0x03
  else if b.val = 0xED then 0x23
  else if b.val < 0xF0 then 0x03
  else if b.val = 0xF0 then 0x34
  else if b.val < 0xF4 then 0x04
  else if b.val = 0xF4 then 0x44
  else 0xF1

/-- The table `utf8.acceptRanges`: bounds `(lo, hi)` of the second byte. -/
def acceptRanges (i : Nat) : Nat × Nat :=
  match i with
  | 0 => (0x80, 0xBF)
  | 1 => (0xA0, 0xBF)
  | 2 => (0x80, 0x9F)
  | 3 => (0x90, 0xBF)
  | 4 => (0x80, 0x8F)
  | _ => (0, 0)

/-- The function `utf8.DecodeRuneInString`: the first rune of `s` and its
width in bytes; an invalid or truncated encoding is `(RuneError, 1)`, the
empty string `(RuneError, 0)`. -/
def DecodeRuneInString (s : List Byte) : Nat × Nat :=
  match s with
  | [] => (RuneError, 0)
  | s0 :: _ =>
    let x := first s0
    if x ≥ 0xF0 then
      (if x = 0xF0 then s0.val else RuneError, 1)
    else
      let sz := x &&& 7
      let accept := acceptRanges (x >>> 4)
      if s.length < sz then (RuneError, 1)
      else
        let s1 := (s.getD 1 0).val
        if s1 < accept.1 ∨ accept.2 < s1 then (RuneError, 1)
        else if sz ≤ 2 then (((s0.val &&& 0x1F) <<< 6) ||| (s1 &&& 0x3F), 2)
        else
          let s2 := (s.getD 2 0).val
          if s2 < 0x80 ∨ 0xBF < s2 then (RuneError, 1)
          else if sz ≤ 3 then
            (((s0.val &&& 0x0F) <<< 12) ||| ((s1 &&& 0x3F) <<< 6) ||| (s2 &&& 0x3F), 3)
          else
            let s3 := (s.getD 3 0).val
            if s3 < 0x80 ∨ 0xBF < s3 then (RuneError, 1)
            else
              (((s0.val &&& 0x07) <<< 18) ||| ((s1 &&& 0x3F) <<< 12) |||
                ((s2 &&& 0x3F) <<< 6) ||| (s3 &&& 0x3F), 4)

/-- The function `utf8.RuneStart`: `b` is not a continuation byte. -/
def RuneStart (b : Byte) : Bool := b.val &&& 0xC0 != 0x80

/-- The backward scan of `utf8.DecodeLastRuneInString`:
`for start--; start >= lim; start-- { if RuneStart(s[start]) { break } }`,
entered after the `start--` of its init statement. -/
def scanRuneStart (s : List Byte) (lim : Int) : Nat → Int → Int
  | 0, start => start
  | fuel + 1, start =>
    if start ≥ lim then
      if RuneStart (s.getD start.toNat 0) then start
      else scanRuneStart s lim fuel (start - 1)
    else start

/-- The function `utf8.DecodeLastRuneInString`: the last rune of `s` and its
width in bytes. -/
def DecodeLastRuneInString (s : List Byte) : Nat × Nat :=
  let end' : Int := s.length
  if end' = 0 then (RuneError, 0)
  else
    let start := end' - 1
    let r := (s.getD start.toNat 0).val
    if r < RuneSelf then (r, 1)
    else
      let lim := if end' - UTFMax < 0 then 0 else end' - UTFMax
      let start := scanRuneStart s lim UTFMax (start - 1)
      let start := if start < 0 then 0 else start
      let (r, size) := DecodeRuneInString (s.drop start.toNat)
      if start + size ≠ end' then (RuneError, 1) else (r, size)

/-- The loop `for range s { n++ }` of `utf8.RuneCountInString`, on the rest
of the string; the first argument bounds the number of iterations. -/
def runeCount : Nat → List Byte → Nat
  | 0, _ => 0
  | fuel + 1, s =>
    if s = [] then 0 else 1 + runeCount fuel (s.drop (DecodeRuneInString s).2)

/-- The function `utf8.RuneCountInString`: each invalid byte counts as one
rune. -/
def RuneCountInString (s : List Byte) : Nat := runeCount s.length s

/-- The ranges of `unicode.White_Space` after its Latin-1 part
(`R16[LatinOffset:]`): `(Lo, Hi, Stride)`. -/
def White_Space : List (Nat × Nat × Nat) :=
  [(0x1680, 0x1680, 1), (0x2000, 0x200a, 1), (0x2028, 0x2029, 1),
   (0x202f, 0x202f, 1), (0x205f, 0x205f, 1), (0x3000, 0x3000, 1)]

/-- The function `unicode.IsSpace`. -/
def IsSpace (r : Nat) : Bool :=
  if r ≤ 0xFF then
    r = 0x09 ∨ r = 0x0A ∨ r = 0x0B ∨ r = 0x0C ∨ r = 0x0D ∨ r = 0x20 ∨ r = 0x85 ∨ r = 0xA0
  else
    White_Space.any (fun t => t.1 ≤ r ∧ r ≤ t.2.1 ∧ (r - t.1) % t.2.2 = 0)

/-- The table `strings.asciiSpace`. -/
def asciiSpace (c : Byte) : Bool :=
  c.val = 0x09 ∨ c.val = 0x0A ∨ c.val = 0x0B ∨ c.val = 0x0C ∨ c.val = 0x0D ∨ c.val = 0x20

/-! ## `strings.TrimSpace` and the `%-Ns` verb -/

/-- The loop `for i, r := range s { if f(r) == truth { return i } }` of
`strings.indexFunc`, at byte offset `i` with `rest = s[i:]`; `-1` when the loop
runs off the end.  The first argument bounds the number of iterations. -/
def indexFuncLoop (f : Nat → Bool) (truth : Bool) : Nat → Nat → List Byte → Int
  | 0, _, _ => -1
  | fuel + 1, i, rest =>
    if rest = [] then -1
    else
      let (r, size) := DecodeRuneInString rest
      if f r = truth then (i : Int)
      else indexFuncLoop f truth fuel (i + size) (rest.drop size)

/-- The function `strings.indexFunc`. -/
def indexFunc (s : List Byte) (f : Nat → Bool) (truth : Bool) : Int :=
  indexFuncLoop f truth s.length 0 s

/-- The loop of `strings.lastIndexFunc`:
`for i := len(s); i > 0; { r, size := DecodeLastRuneInString(s[0:i]); i -= size;
if f(r) == truth { return i } }`.  The first argument bounds the number of
iterations. -/
def lastIndexFuncLoop (s : List Byte) (f : Nat → Bool) (truth : Bool) : Nat → Nat → Int
  | 0, _ => -1
  | fuel + 1, i =>
    if i > 0 then
      let (r, size) := DecodeLastRuneInString (s.take i)
      let i := i - size
      if f r = truth then (i : Int)
      else lastIndexFuncLoop s f truth fuel i
    else -1

/-- The function `strings.lastIndexFunc`. -/
def lastIndexFunc (s : List Byte) (f : Nat → Bool) (truth : Bool) : Int :=
  lastIndexFuncLoop s f truth s.length s.length

/-- The function `strings.TrimLeftFunc`. -/
def TrimLeftFunc (s : List Byte) (f : Nat → Bool) : List Byte :=
  let i := indexFunc s f false
  if i = -1 then [] else s.drop i.toNat

/-- The function `strings.TrimRightFunc`. -/
def TrimRightFunc (s : List Byte) (f : Nat → Bool) : List Byte :=
  let i := lastIndexFunc s f false
  let i :=
    if i ≥ 0 ∧ (s.getD i.toNat 0).val ≥ RuneSelf then
      i + (DecodeRuneInString (s.drop i.toNat)).2
    else i + 1
  s.take i.toNat

/-- The function `strings.TrimFunc`. -/
def TrimFunc (s : List Byte) (f : Nat → Bool) : List Byte :=
  TrimRightFunc (TrimLeftFunc s f) f

/-- The second loop of `strings.TrimSpace`, on `s = s[start:]` with `stop`
counted from `start`:
`for ; stop > start; stop-- { c := s[stop-1]; if c >= RuneSelf { return
TrimRightFunc(s[start:stop], IsSpace) }; if asciiSpace[c] == 0 { break } }`,
then `return s[start:stop]`. -/
def trimSpaceStop (s : List Byte) : Nat → List Byte
  | 0 => s.take 0
  | stop + 1 =>
    let c := s.getD stop 0
    if c.val ≥ RuneSelf then TrimRightFunc (s.take (stop + 1)) IsSpace
    else if asciiSpace c = false then s.take (stop + 1)
    else trimSpaceStop s stop

/-- The first loop of `strings.TrimSpace`, on `s[start:]`:
`for ; start < len(s); start++ { c := s[start]; if c >= RuneSelf { return
TrimFunc(s[start:], IsSpace) }; if asciiSpace[c] == 0 { break } }`,
followed by the second loop. -/
def trimSpaceStart : List Byte → List Byte
  | [] => trimSpaceStop [] 0
  | c :: rest =>
    if c.val ≥ RuneSelf then TrimFunc (c :: rest) IsSpace
    else if asciiSpace c = false then trimSpaceStop (c :: rest) (c :: rest).length
    else trimSpaceStart rest

/-- The function `strings.TrimSpace`. -/
def TrimSpace (s : List Byte) : List Byte := trimSpaceStart s

/-- The call `fmt.Sprintf("%-Ns", s)` for width `N = wid`: `s` followed by
`wid - utf8.RuneCountInString(s)` spaces when that number is positive
(`fmt.padString` with the minus flag). -/
def Sprintf_left (wid : Nat) (s : List Byte) : List Byte :=
  let width : Int := (wid : Int) - (RuneCountInString s : Int)
  s ++ List.replicate width.toNat 0x20

/-! ## The record, the registry, the codec -/

/-- The Go type `MMMode` (a `uint8`). -/
abbrev MMMode := Byte

/-- The Go type `MMState` (a `uint8`). -/
abbrev MMState := Byte

/-- The constant `MMMODE_NORMAL`, 'N'. -/
def MMMODE_NORMAL : MMMode := 0x4E

/-- The constant `MMMODE_PASSIVE`, 'P'. -/
def MMMODE_PASSIVE : MMMode := 0x50

/-- The constant `MMMODE_SYNDICATE`, 'S'. -/
def MMMODE_SYNDICATE : MMMode := 0x53

/-- The constant `MMMODE_PRE_SYNDICATE`, 'R'. -/
def MMMODE_PRE_SYNDICATE : MMMode := 0x52

/-- The constant `MMMODE_PENALTY`, 'L'. -/
def MMMODE_PENALTY : MMMode := 0x4C

/-- The constant `MMSTATE_ACTIVE`, 'A'. -/
def MMSTATE_ACTIVE : MMState := 0x41

/-- The constant `MMSTATE_EXCUSED`, 'E'. -/
def MMSTATE_EXCUSED : MMState := 0x45

/-- The constant `MMSTATE_WITHDRAWN`, 'W'. -/
def MMSTATE_WITHDRAWN : MMState := 0x57

/-- The constant `MMSTATE_SUSPENDED`, 'S'. -/
def MMSTATE_SUSPENDED : MMState := 0x53

/-- The constant `MMSTATE_DELETED`, 'D'. -/
def MMSTATE_DELETED : MMState := 0x44

/-- The method `MMMode.String`: the `switch` over the five constants, then
the fallback. -/
def MMMode.String (m : MMMode) : String :=
  if m = MMMODE_NORMAL then "Normal"
  else if m = MMMODE_PASSIVE then "Passive"
  else if m = MMMODE_SYNDICATE then "Syndicate"
  else if m = MMMODE_PRE_SYNDICATE then "Pre-Syndicate"
  else if m = MMMODE_PENALTY then "Penalty"
  else "Unknown MMMode"

/-- The method `MMState.String`: the `switch` over the five constants, then
the fallback. -/
def MMState.String (m : MMState) : String :=
  if m = MMSTATE_ACTIVE then "Active"
  else if m = MMSTATE_EXCUSED then "Excused/Withdrawn"
  else if m = MMSTATE_WITHDRAWN then "Withdrawn"
  else if m = MMSTATE_SUSPENDED then "Suspended"
  else if m = MMSTATE_DELETED then "Deleted"
  else "Unknown MMState"

/-- The Go struct `ParticipantPosition`. -/
structure ParticipantPosition where
  Timestamp : Int
  Mpid : List Byte
  Stock : List Byte
  StockLocate : Word16
  TrackingNumber : Word16
  PrimaryMM : Bool
  Mode : MMMode
  State : MMState
  deriving DecidableEq, Repr

/-- The zero value `ParticipantPosition{}`. -/
def ParticipantPosition.zero : ParticipantPosition :=
  { Timestamp := 0, Mpid := [], Stock := [], StockLocate := 0, TrackingNumber := 0,
    PrimaryMM := false, Mode := 0, State := 0 }

/-- Modelled from the spec: the constant `participantPositionSize` is declared
outside this file; the wire record is "always exactly 26 bytes". -/
def participantPositionSize : Nat := 26

/-- Modelled from the spec: the error type behind `NewInvalidPacketSize` is
declared outside this file; it is the "invalid size" error "carrying expected
and actual lengths". -/
structure InvalidPacketSize where
  expected : Nat
  actual : Nat
  deriving DecidableEq, Repr

/-- Modelled from the spec: the constructor `NewInvalidPacketSize(expected,
actual)`, declared outside this file. -/
def NewInvalidPacketSize (expected actual : Nat) : InvalidPacketSize :=
  { expected := expected, actual := actual }

/-- The type of the package variable `MarketParticipants`, a
`map[string][]ParticipantPosition`: a key is absent (`none`) or bound to a
slice. -/
abbrev Registry := List Byte → Option (List ParticipantPosition)

/-- The initial value `make(map[string][]ParticipantPosition)`. -/
def Registry.empty : Registry := fun _ => none

/-- The map read `m[k]`: the zero value (the nil slice) when `k` is absent. -/
def Registry.get (m : Registry) (k : List Byte) : List ParticipantPosition :=
  (m k).getD []

/-- The map write `m[k] = v`. -/
def Registry.put (m : Registry) (k : List Byte) (v : List ParticipantPosition) : Registry :=
  fun k' => if k' = k then some v else m k'

/-- The method `ParticipantPosition.Type`.  The constant
`MESSAGE_PARTICIPANT_POSITION` is declared outside this file and is a
parameter here. -/
def ParticipantPosition.Type (MESSAGE_PARTICIPANT_POSITION : Byte)
    (_p : ParticipantPosition) : Byte :=
  MESSAGE_PARTICIPANT_POSITION

/-- The method `ParticipantPosition.Bytes`.  The constant
`MESSAGE_PARTICIPANT_POSITION` is declared outside this file and is a
parameter here.  Every index and slice bound below is a constant under 26, so
the writes are total on the fresh buffer. -/
def ParticipantPosition.Bytes (MESSAGE_PARTICIPANT_POSITION : Byte)
    (p : ParticipantPosition) : List Byte :=
  let data := make participantPositionSize
  let data := data.set 0 MESSAGE_PARTICIPANT_POSITION
  let data := BigEndian.PutUint16 data 1 p.StockLocate
  let data := BigEndian.PutUint64 data 3 (uint64 p.Timestamp)
  let data := BigEndian.PutUint16 data 3 p.TrackingNumber
  let data := copy data 11 15 (Sprintf_left 4 p.Mpid)
  let data := copy data 15 23 (Sprintf_left 8 p.Stock)
  let data := if p.PrimaryMM then data.set 23 0x59 else data.set 23 0x4E
  let data := data.set 24 p.Mode
  let data := data.set 25 p.State
  data

/-- What a call of `ParseParticipantPosition` leaves behind: its two return
values, the caller's buffer (the slice shares its bytes with the caller) and
the registry. -/
structure ParseResult where
  pp : ParticipantPosition
  err : Option InvalidPacketSize
  data : List Byte
  MarketParticipants : Registry

/-- The function `ParseParticipantPosition`, run on the buffer `data` with the
registry `MarketParticipants`; `none` is a run-time panic. -/
def ParseParticipantPosition (data : List Byte) (MarketParticipants : Registry) :
    Option ParseResult :=
  if data.length ≠ participantPositionSize then
    some { pp := ParticipantPosition.zero,
           err := some (NewInvalidPacketSize participantPositionSize data.length),
           data := data, MarketParticipants := MarketParticipants }
  else do
    let locate ← (slice data 1 3).bind BigEndian.Uint16
    let tracking ← (slice data 3 5).bind BigEndian.Uint16
    let data ← store data 3 0
    let data ← store data 4 0
    let t ← (slice data 3 11).bind BigEndian.Uint64
    let b23 ← index data 23
    let primary := if b23 = 0x59 then true else false
    let mpid ← slice data 11 15
    let stock ← slice data 15 23
    let mode ← index data 24
    let state ← index data 25
    let pp : ParticipantPosition :=
      { StockLocate := locate, TrackingNumber := tracking, Timestamp := int64 t,
        Mpid := TrimSpace mpid, Stock := TrimSpace stock, PrimaryMM := primary,
        Mode := mode, State := state }
    let MarketParticipants :=
      MarketParticipants.put pp.Mpid (MarketParticipants.get pp.Mpid ++ [pp])
    pure { pp := pp, err := none, data := data, MarketParticipants := MarketParticipants }

/-! ## Definitions for the statements

The closed form of the decoder, the direct layout the specification describes
as equivalent, the notions of whitespace at either end of a string, the two
trimming loops seen on lists, and the concrete inputs of the examples. -/

/-- The record `ParseParticipantPosition` assembles from a buffer of 26 bytes:
the reads of its lines 80 to 100, with bytes 3 and 4 zeroed before the 64-bit
read. -/
def decodedRecord (data : List Byte) : ParticipantPosition :=
  { StockLocate := uint16 ((data.getD 2 0).val ||| ((data.getD 1 0).val <<< 8)),
    TrackingNumber := uint16 ((data.getD 4 0).val ||| ((data.getD 3 0).val <<< 8)),
    Timestamp := int64 (((data.getD 10 0).val ||| ((data.getD 9 0).val <<< 8) |||
      ((data.getD 8 0).val <<< 16) ||| ((data.getD 7 0).val <<< 24) |||
      ((data.getD 6 0).val <<< 32) ||| ((data.getD 5 0).val <<< 40) |||
      ((0 : Byte).val <<< 48) ||| ((0 : Byte).val <<< 56)) % 2 ^ 64),
    Mpid := TrimSpace ((data.drop 11).take 4),
    Stock := TrimSpace ((data.drop 15).take 8),
    PrimaryMM := if data.getD 23 0 = 0x59 then true else false,
    Mode := data.getD 24 0,
    State := data.getD 25 0 }

/-- Stated from the spec ("read bytes 5–10 directly as a 48-bit big-endian
integer"): the six bytes of `data` from offset `off` on, most significant
first. -/
def readUint48 (data : List Byte) (off : Nat) : Nat :=
  (data.getD off 0).val * 2 ^ 40 + (data.getD (off + 1) 0).val * 2 ^ 32 +
    (data.getD (off + 2) 0).val * 2 ^ 24 + (data.getD (off + 3) 0).val * 2 ^ 16 +
    (data.getD (off + 4) 0).val * 2 ^ 8 + (data.getD (off + 5) 0).val

/-- A buffer of 26 bytes used as the concrete input of the examples: the
encoding of stock locate 7, tracking number 3, timestamp 123456789 ns, MPID
"ABC", stock "ZVZZT", primary, mode 'N', state 'A', under the tag 'L'. -/
def sampleBuffer : List Byte :=
  [0x4C, 0x00, 0x07, 0x00, 0x03, 0x00, 0x00, 0x07, 0x5B, 0xCD, 0x15, 0x41, 0x42, 0x43, 0x20,
   0x5A, 0x56, 0x5A, 0x5A, 0x54, 0x20, 0x20, 0x20, 0x59, 0x4E, 0x41]

/-- The bytes a `copy` of `fmt.Sprintf("%-Ns", s)` into a field of `wid` bytes
leaves there: the first `wid` bytes of `s`, then spaces up to `wid` bytes. -/
def padField (wid : Nat) (s : List Byte) : List Byte :=
  s.take wid ++ List.replicate (wid - s.length) 0x20

/-- Stated from the spec ("directly write a 48-bit big-endian value into bytes
5–10"): the six bytes of `v`, most significant first, written at `lo`. -/
def PutUint48 (data : List Byte) (lo : Nat) (v : Nat) : List Byte :=
  ((((((data.set (lo + 0) (byte (v >>> 40))).set (lo + 1) (byte (v >>> 32))).set
    (lo + 2) (byte (v >>> 24))).set (lo + 3) (byte (v >>> 16))).set
    (lo + 4) (byte (v >>> 8))).set (lo + 5) (byte v))

/-- Stated from the spec: the encoder an implementer "may instead" write,
which puts TrackingNumber into bytes 3–4 and the low 48 bits of the timestamp
into bytes 5–10 independently; every other line is that of
`ParticipantPosition.Bytes`. -/
def ParticipantPosition.BytesDirect (MESSAGE_PARTICIPANT_POSITION : Byte)
    (p : ParticipantPosition) : List Byte :=
  let data := make participantPositionSize
  let data := data.set 0 MESSAGE_PARTICIPANT_POSITION
  let data := BigEndian.PutUint16 data 1 p.StockLocate
  let data := BigEndian.PutUint16 data 3 p.TrackingNumber
  let data := PutUint48 data 5 (uint64 p.Timestamp % 2 ^ 48)
  let data := copy data 11 15 (Sprintf_left 4 p.Mpid)
  let data := copy data 15 23 (Sprintf_left 8 p.Stock)
  let data := if p.PrimaryMM then data.set 23 0x59 else data.set 23 0x4E
  let data := data.set 24 p.Mode
  let data := data.set 25 p.State
  data

/-- The record of the examples: stock locate 7, tracking number 3, timestamp
123456789 ns, MPID "ABC", stock "ZVZZT", primary, mode 'N', state 'A'. -/
def sampleRecord : ParticipantPosition :=
  { Timestamp := 123456789, Mpid := [0x41, 0x42, 0x43], Stock := [0x5A, 0x56, 0x5A, 0x5A, 0x54],
    StockLocate := 7, TrackingNumber := 3, PrimaryMM := true, Mode := 0x4E, State := 0x41 }

/-- The record of the examples with its timestamp moved past 48 bits. -/
def lateRecord : ParticipantPosition :=
  { sampleRecord with Timestamp := 2 ^ 48 + 123456789 }

/-- The string `s` begins with whitespace: its first rune is a space for
`unicode.IsSpace`. -/
def leadingSpace (s : List Byte) : Bool := IsSpace (DecodeRuneInString s).1

/-- The string `s` ends with whitespace: its last rune is a space for
`unicode.IsSpace`. -/
def trailingSpace (s : List Byte) : Bool := IsSpace (DecodeLastRuneInString s).1

/-- The string `s` is whitespace only: rune after rune, as a `range` loop
reads it, is a space for `unicode.IsSpace`. -/
inductive AllSpace : List Byte → Prop
  | nil : AllSpace []
  | rune (s : List Byte) : s ≠ [] → IsSpace (DecodeRuneInString s).1 = true →
      AllSpace (s.drop (DecodeRuneInString s).2) → AllSpace s

/-- The result of `TrimLeftFunc(s, unicode.IsSpace)` seen on the rest of the
string: whitespace runes are dropped from the front until a rune is not a
space. -/
def trimLeftLoop : Nat → List Byte → List Byte
  | 0, _ => []
  | fuel + 1, rest =>
    if rest = [] then []
    else if IsSpace (DecodeRuneInString rest).1 = false then rest
    else trimLeftLoop fuel (rest.drop (DecodeRuneInString rest).2)

/-- The result of `TrimRightFunc(s, unicode.IsSpace)` seen on the front of
the string: whitespace runes are dropped from the end until a rune is not a
space. -/
def trimRightLoop : Nat → List Byte → List Byte
  | 0, _ => []
  | fuel + 1, u =>
    if u = [] then []
    else if IsSpace (DecodeLastRuneInString u).1 = false then u
    else trimRightLoop fuel (u.take (u.length - (DecodeLastRuneInString u).2))

/-- The tail of `TrimRightFunc`, after the call of `lastIndexFunc` has
returned the index `k`: the string up to the end of the rune at `k`, or the
empty string for `k = -1`. -/
def trimRightAt (s : List Byte) (k : Int) : List Byte :=
  s.take ((if k ≥ 0 ∧ (s.getD k.toNat 0).val ≥ RuneSelf then
      k + ((DecodeRuneInString (s.drop k.toNat)).2 : Int)
    else k + 1).toNat)

/-- A buffer of 26 bytes whose identifier fields are padded on both sides,
with a no-break space (bytes `C2 A0`) in front of the MPID "A". -/
def paddedBuffer : List Byte :=
  [0x4C, 0x00, 0x07, 0x00, 0x03, 0x00, 0x00, 0x07, 0x5B, 0xCD, 0x15, 0xC2, 0xA0, 0x41, 0x20,
   0x20, 0x09, 0x5A, 0x56, 0x5A, 0x5A, 0x54, 0x0A, 0x59, 0x4E, 0x41]

/-! ## Definitions for the statements about the registry -/

/-- A run of calls of `ParseParticipantPosition`, one per buffer and in order,
each on the registry the call before it left: the results of the calls and the
registry after the last one; `none` is a run-time panic. -/
def parseAll : List (List Byte) → Registry → Option (List ParseResult × Registry)
  | [], reg => some ([], reg)
  | data :: rest, reg => do
    let res ← ParseParticipantPosition data reg
    let (results, reg') ← parseAll rest res.MarketParticipants
    pure (res :: results, reg')

/-- The invariant of the registry: every key is bound to a non-empty history
of records that carry the key as their Mpid, a timestamp in `[0, 2^48)`, and
an Mpid and a Stock that neither begin nor end with whitespace. -/
def RegistryInv (reg : Registry) : Prop :=
  ∀ k h, reg k = some h →
    h ≠ [] ∧
    ∀ p ∈ h, p.Mpid = k ∧ 0 ≤ p.Timestamp ∧ p.Timestamp < 2 ^ 48 ∧
      leadingSpace p.Mpid = false ∧ trailingSpace p.Mpid = false ∧
      leadingSpace p.Stock = false ∧ trailingSpace p.Stock = false

/-- The buffer `b` is one of those the registry files under the identifier
`m`: it is 26 bytes long and its bytes 11–14, trimmed, are `m`. -/
def hasMpid (m : List Byte) (b : List Byte) : Bool :=
  decide (b.length = 26) && decide (TrimSpace ((b.drop 11).take 4) = m)

/-- The three buffers of the run of the examples. -/
def sampleRun : List (List Byte) := [sampleBuffer, paddedBuffer, sampleBuffer]

/-- A record with a short Mpid ("AB") and a Stock of nine bytes
("ZVZZTABCD"). -/
def shortLongRecord : ParticipantPosition :=
  { sampleRecord with
    Mpid := [0x41, 0x42],
    Stock := [0x5A, 0x56, 0x5A, 0x5A, 0x54, 0x41, 0x42, 0x43, 0x44] }

/-! # Properties -/

/-! ## Auxiliary facts: byte order -/

theorem lor_shiftLeft_of_lt (acc b k : Nat) (h : acc < 2 ^ k) :
    acc ||| (b <<< k) = b * 2 ^ k + acc := by
  rw [Nat.shiftLeft_eq, Nat.lor_comm, Nat.mul_comm b, ← Nat.mul_add_lt_is_or h]

theorem Uint16_val (b0 b1 : Byte) :
    (uint16 (b1.val ||| (b0.val <<< 8))).val = b0.val * 256 + b1.val := by
  have h0 := b0.isLt
  have h1 := b1.isLt
  rw [lor_shiftLeft_of_lt b1.val b0.val 8 (by omega)]
  simp only [uint16]
  omega

theorem Uint64_val (b2 b3 b4 b5 b6 b7 : Byte) :
    (b7.val ||| (b6.val <<< 8) ||| (b5.val <<< 16) ||| (b4.val <<< 24) ||| (b3.val <<< 32) |||
      (b2.val <<< 40) ||| ((0 : Byte).val <<< 48) ||| ((0 : Byte).val <<< 56)) % 2 ^ 64 =
    b2.val * 2 ^ 40 + b3.val * 2 ^ 32 + b4.val * 2 ^ 24 + b5.val * 2 ^ 16 + b6.val * 2 ^ 8 +
      b7.val := by
  have h2 := b2.isLt
  have h3 := b3.isLt
  have h4 := b4.isLt
  have h5 := b5.isLt
  have h6 := b6.isLt
  have h7 := b7.isLt
  rw [lor_shiftLeft_of_lt b7.val b6.val 8 (by omega)]
  rw [lor_shiftLeft_of_lt _ b5.val 16 (by omega)]
  rw [lor_shiftLeft_of_lt _ b4.val 24 (by omega)]
  rw [lor_shiftLeft_of_lt _ b3.val 32 (by omega)]
  rw [lor_shiftLeft_of_lt _ b2.val 40 (by omega)]
  simp only [Fin.val_zero, Nat.zero_shiftLeft, Nat.or_zero]
  omega

theorem int64_of_lt (x : Nat) (h : x < 2 ^ 63) : int64 x = (x : Int) := by
  have h1 : x % 2 ^ 64 = x := Nat.mod_eq_of_lt (by omega)
  simp only [int64, h1, h, if_true]

/-! ## Auxiliary facts: the decoder in closed form -/

theorem length_26_cases (data : List Byte) (h : data.length = 26) :
    ∃ b0 b1 b2 b3 b4 b5 b6 b7 b8 b9 b10 b11 b12 b13 b14 b15 b16 b17 b18 b19 b20 b21 b22 b23
      b24 b25 : Byte,
      data = [b0, b1, b2, b3, b4, b5, b6, b7, b8, b9, b10, b11, b12, b13, b14, b15, b16, b17,
        b18, b19, b20, b21, b22, b23, b24, b25] := by
  match data, h with
  | [b0, b1, b2, b3, b4, b5, b6, b7, b8, b9, b10, b11, b12, b13, b14, b15, b16, b17,
        b18, b19, b20, b21, b22, b23, b24, b25], _ =>
    exact ⟨b0, b1, b2, b3, b4, b5, b6, b7, b8, b9, b10, b11, b12, b13, b14, b15, b16, b17,
        b18, b19, b20, b21, b22, b23, b24, b25, rfl⟩

/-- On a buffer of 26 bytes the decoder does not panic: it returns
`decodedRecord data` and no error, leaves the buffer with bytes 3 and 4 zeroed,
and appends the record to the history of its `Mpid`. -/
theorem ParseParticipantPosition_of_length (data : List Byte) (reg : Registry)
    (h : data.length = 26) :
    ParseParticipantPosition data reg =
      some { pp := decodedRecord data, err := none, data := (data.set 3 0).set 4 0,
             MarketParticipants :=
               reg.put (decodedRecord data).Mpid
                 (reg.get (decodedRecord data).Mpid ++ [decodedRecord data]) } := by
  obtain ⟨b0, b1, b2, b3, b4, b5, b6, b7, b8, b9, b10, b11, b12, b13, b14, b15, b16, b17,
    b18, b19, b20, b21, b22, b23, b24, b25, rfl⟩ := length_26_cases data h
  rfl

/-- On a buffer of any other length the decoder returns the zero record and
the size error, and touches neither the buffer nor the registry. -/
theorem ParseParticipantPosition_of_length_ne (data : List Byte) (reg : Registry)
    (h : data.length ≠ 26) :
    ParseParticipantPosition data reg =
      some { pp := ParticipantPosition.zero,
             err := some (NewInvalidPacketSize 26 data.length),
             data := data, MarketParticipants := reg } := by
  unfold ParseParticipantPosition
  rw [if_pos (by simpa [participantPositionSize] using h)]
  rfl

theorem readUint48_lt (data : List Byte) (off : Nat) : readUint48 data off < 2 ^ 48 := by
  have h0 := (data.getD off 0).isLt
  have h1 := (data.getD (off + 1) 0).isLt
  have h2 := (data.getD (off + 2) 0).isLt
  have h3 := (data.getD (off + 3) 0).isLt
  have h4 := (data.getD (off + 4) 0).isLt
  have h5 := (data.getD (off + 5) 0).isLt
  simp only [readUint48]
  omega

theorem decodedRecord_Timestamp (data : List Byte) :
    (decodedRecord data).Timestamp = (readUint48 data 5 : Int) := by
  have h := readUint48_lt data 5
  simp only [decodedRecord, Uint64_val]
  rw [int64_of_lt]
  · rfl
  · simp only [readUint48] at h
    omega

/-! ## Auxiliary facts: rune widths and padding -/

theorem first_spec (b : Byte) :
    (first b = 0xF0 ∧ b.val < 0x80) ∨ (first b = 0xF1 ∧ 0x80 ≤ b.val) ∨
    (first b < 0xF0 ∧ 0xC2 ≤ b.val ∧ 2 ≤ first b &&& 7 ∧ first b &&& 7 ≤ 4 ∧
      0x80 ≤ (acceptRanges (first b >>> 4)).1 ∧ (acceptRanges (first b >>> 4)).2 ≤ 0xBF) := by
  unfold first
  split_ifs
  · left; omega
  · right; left; omega
  all_goals first
    | (right; right; exact ⟨by decide, by omega, by decide, by decide, by decide, by decide⟩)
    | (right; left; omega)

theorem DecodeRuneInString_size_pos (s : List Byte) (h : s ≠ []) :
    1 ≤ (DecodeRuneInString s).2 := by
  cases s with
  | nil => exact absurd rfl h
  | cons s0 t =>
    unfold DecodeRuneInString
    simp only
    split_ifs <;> simp

theorem runeCount_le (fuel : Nat) (s : List Byte) : runeCount fuel s ≤ s.length := by
  induction fuel generalizing s with
  | zero => simp [runeCount]
  | succ n ih =>
    unfold runeCount
    split_ifs with h
    · simp
    · have h1 := DecodeRuneInString_size_pos s h
      have h2 := ih (s.drop (DecodeRuneInString s).2)
      simp only [List.length_drop] at h2
      have h3 : 0 < s.length := List.length_pos.mpr h
      omega

theorem RuneCountInString_le (s : List Byte) : RuneCountInString s ≤ s.length :=
  runeCount_le _ s

theorem padField_length (wid : Nat) (s : List Byte) : (padField wid s).length = wid := by
  simp [padField]; omega

theorem Sprintf_left_length (wid : Nat) (s : List Byte) : wid ≤ (Sprintf_left wid s).length := by
  have := RuneCountInString_le s
  simp only [Sprintf_left, List.length_append, List.length_replicate]
  omega

theorem Sprintf_left_take (wid : Nat) (s : List Byte) :
    (Sprintf_left wid s).take wid = padField wid s := by
  have := RuneCountInString_le s
  simp only [Sprintf_left, padField, List.take_append_eq_append_take, List.take_replicate]
  congr 2
  omega

/-! ## Auxiliary facts: the encoder in closed form -/

theorem copy_eq (pre mid post src : List Byte) (lo hi : Nat) (h1 : pre.length = lo)
    (h2 : mid.length = hi - lo) (h3 : hi - lo ≤ src.length) :
    copy (pre ++ mid ++ post) lo hi src = pre ++ src.take (hi - lo) ++ post := by
  subst h1
  unfold copy
  generalize hi - pre.length = n at *
  subst h2
  simp [Nat.min_eq_left h3, List.take_append_eq_append_take, List.drop_append_eq_append_drop]

/-- The second half of the encoder (the two copies and the three tag bytes)
on a buffer whose first eleven bytes are `hdr` and whose other bytes are
still zero. -/
theorem encode_tail (hdr : List Byte) (hh : hdr.length = 11) (p : ParticipantPosition) :
    (((if p.PrimaryMM then
        (copy (copy (hdr ++ [0, 0, 0, 0] ++ [0, 0, 0, 0, 0, 0, 0, 0, 0, 0, 0]) 11 15
          (Sprintf_left 4 p.Mpid)) 15 23 (Sprintf_left 8 p.Stock)).set 23 0x59
      else
        (copy (copy (hdr ++ [0, 0, 0, 0] ++ [0, 0, 0, 0, 0, 0, 0, 0, 0, 0, 0]) 11 15
          (Sprintf_left 4 p.Mpid)) 15 23 (Sprintf_left 8 p.Stock)).set 23 0x4E).set 24
        p.Mode).set 25 p.State) =
      hdr ++ padField 4 p.Mpid ++ padField 8 p.Stock ++
        [if p.PrimaryMM then 0x59 else 0x4E, p.Mode, p.State] := by
  have e1 := copy_eq hdr [0, 0, 0, 0] [0, 0, 0, 0, 0, 0, 0, 0, 0, 0, 0] (Sprintf_left 4 p.Mpid)
    11 15 hh rfl (Sprintf_left_length 4 p.Mpid)
  have e2 := copy_eq (hdr ++ padField 4 p.Mpid) [0, 0, 0, 0, 0, 0, 0, 0] [0, 0, 0]
    (Sprintf_left 8 p.Stock) 15 23 (by simp [padField_length, hh]) rfl
    (Sprintf_left_length 8 p.Stock)
  simp only [Sprintf_left_take, Nat.add_one_sub_one, Nat.reduceSub] at e1 e2
  have e4 : ∀ l : List Byte, l ++ [0, 0, 0, 0, 0, 0, 0, 0, 0, 0, 0] =
      l ++ [0, 0, 0, 0, 0, 0, 0, 0] ++ [0, 0, 0] := fun l => by simp
  rw [e1, e4, e2]
  have hm := padField_length 4 p.Mpid
  have hs := padField_length 8 p.Stock
  generalize padField 4 p.Mpid = m at *
  generalize padField 8 p.Stock = k at *
  match hdr, hh, m, hm, k, hs with
  | [a0, a1, a2, a3, a4, a5, a6, a7, a8, a9, a10], _, [m0, m1, m2, m3], _,
    [k0, k1, k2, k3, k4, k5, k6, k7], _ =>
    cases p.PrimaryMM <;> rfl

/-- The encoder in closed form: eleven header bytes, the two padded
identifier fields, and the three tag bytes. -/
theorem Bytes_eq (tag : Byte) (p : ParticipantPosition) :
    p.Bytes tag =
      [tag, byte (p.StockLocate.val >>> 8), byte p.StockLocate.val,
        byte (p.TrackingNumber.val >>> 8), byte p.TrackingNumber.val,
        byte (uint64 p.Timestamp >>> 40), byte (uint64 p.Timestamp >>> 32),
        byte (uint64 p.Timestamp >>> 24), byte (uint64 p.Timestamp >>> 16),
        byte (uint64 p.Timestamp >>> 8), byte (uint64 p.Timestamp)] ++
      padField 4 p.Mpid ++ padField 8 p.Stock ++
      [if p.PrimaryMM then 0x59 else 0x4E, p.Mode, p.State] := by
  rw [← encode_tail
    [tag, byte (p.StockLocate.val >>> 8), byte p.StockLocate.val,
        byte (p.TrackingNumber.val >>> 8), byte p.TrackingNumber.val,
        byte (uint64 p.Timestamp >>> 40), byte (uint64 p.Timestamp >>> 32),
        byte (uint64 p.Timestamp >>> 24), byte (uint64 p.Timestamp >>> 16),
        byte (uint64 p.Timestamp >>> 8), byte (uint64 p.Timestamp)] rfl p]
  rfl

/-- The direct encoder in closed form. -/
theorem BytesDirect_eq (tag : Byte) (p : ParticipantPosition) :
    p.BytesDirect tag =
      [tag, byte (p.StockLocate.val >>> 8), byte p.StockLocate.val,
        byte (p.TrackingNumber.val >>> 8), byte p.TrackingNumber.val,
        byte ((uint64 p.Timestamp % 2 ^ 48) >>> 40), byte ((uint64 p.Timestamp % 2 ^ 48) >>> 32),
        byte ((uint64 p.Timestamp % 2 ^ 48) >>> 24), byte ((uint64 p.Timestamp % 2 ^ 48) >>> 16),
        byte ((uint64 p.Timestamp % 2 ^ 48) >>> 8), byte (uint64 p.Timestamp % 2 ^ 48)] ++
      padField 4 p.Mpid ++ padField 8 p.Stock ++
      [if p.PrimaryMM then 0x59 else 0x4E, p.Mode, p.State] := by
  rw [← encode_tail
    [tag, byte (p.StockLocate.val >>> 8), byte p.StockLocate.val,
        byte (p.TrackingNumber.val >>> 8), byte p.TrackingNumber.val,
        byte ((uint64 p.Timestamp % 2 ^ 48) >>> 40), byte ((uint64 p.Timestamp % 2 ^ 48) >>> 32),
        byte ((uint64 p.Timestamp % 2 ^ 48) >>> 24), byte ((uint64 p.Timestamp % 2 ^ 48) >>> 16),
        byte ((uint64 p.Timestamp % 2 ^ 48) >>> 8), byte (uint64 p.Timestamp % 2 ^ 48)] rfl p]
  rfl

/-- The encoder's output written out as 26 bytes. -/
theorem Bytes_explicit (tag : Byte) (p : ParticipantPosition) :
    ∃ m0 m1 m2 m3 k0 k1 k2 k3 k4 k5 k6 k7 : Byte,
      padField 4 p.Mpid = [m0, m1, m2, m3] ∧
      padField 8 p.Stock = [k0, k1, k2, k3, k4, k5, k6, k7] ∧
      p.Bytes tag =
        [tag, byte (p.StockLocate.val >>> 8), byte p.StockLocate.val,
          byte (p.TrackingNumber.val >>> 8), byte p.TrackingNumber.val,
          byte (uint64 p.Timestamp >>> 40), byte (uint64 p.Timestamp >>> 32),
          byte (uint64 p.Timestamp >>> 24), byte (uint64 p.Timestamp >>> 16),
          byte (uint64 p.Timestamp >>> 8), byte (uint64 p.Timestamp),
          m0, m1, m2, m3, k0, k1, k2, k3, k4, k5, k6, k7,
          if p.PrimaryMM then 0x59 else 0x4E, p.Mode, p.State] := by
  have hm := padField_length 4 p.Mpid
  have hs := padField_length 8 p.Stock
  rw [Bytes_eq]
  generalize padField 4 p.Mpid = m at *
  generalize padField 8 p.Stock = k at *
  match m, hm, k, hs with
  | [m0, m1, m2, m3], _, [k0, k1, k2, k3, k4, k5, k6, k7], _ =>
    exact ⟨m0, m1, m2, m3, k0, k1, k2, k3, k4, k5, k6, k7, rfl, rfl, rfl⟩

theorem byte_shiftRight_mod (v k : Nat) (hk : k + 8 ≤ 48) :
    byte ((v % 2 ^ 48) >>> k) = byte (v >>> k) := by
  apply Fin.ext
  simp only [byte, Nat.shiftRight_eq_div_pow]
  have e : (2 : Nat) ^ 48 = 2 ^ k * (2 ^ 8 * 2 ^ (48 - (k + 8))) := by
    rw [← pow_add, ← pow_add]; congr 1; omega
  rw [e, Nat.mod_mul_right_div_self]
  exact Nat.mod_mul_right_mod _ (2 ^ 8) _

theorem byte_val (x : Nat) : (byte x).val = x % 256 := rfl

theorem Bytes_length (tag : Byte) (p : ParticipantPosition) : (p.Bytes tag).length = 26 := by
  obtain ⟨m0, m1, m2, m3, k0, k1, k2, k3, k4, k5, k6, k7, -, -, e⟩ := Bytes_explicit tag p
  rw [e]; rfl

theorem Bytes_readUint48 (tag : Byte) (p : ParticipantPosition) :
    readUint48 (p.Bytes tag) 5 = uint64 p.Timestamp % 2 ^ 48 := by
  obtain ⟨m0, m1, m2, m3, k0, k1, k2, k3, k4, k5, k6, k7, -, -, e⟩ := Bytes_explicit tag p
  rw [e]
  simp only [readUint48, List.getD_cons_succ, List.getD_cons_zero, byte_val,
    Nat.shiftRight_eq_div_pow]
  omega

/-- Decoding an encoding never fails, and the decoded timestamp is the
encoder's unsigned timestamp modulo `2^48`. -/
theorem Parse_Bytes (tag : Byte) (r : ParticipantPosition) (reg : Registry) :
    ∃ res, ParseParticipantPosition (r.Bytes tag) reg = some res ∧ res.err = none ∧
      res.pp = decodedRecord (r.Bytes tag) ∧
      res.pp.Timestamp = ((uint64 r.Timestamp % 2 ^ 48 : Nat) : Int) := by
  refine ⟨_, ParseParticipantPosition_of_length _ reg (Bytes_length tag r), rfl, rfl, ?_⟩
  rw [decodedRecord_Timestamp, Bytes_readUint48]

theorem uint64_mod (t : Int) : ((uint64 t % 2 ^ 48 : Nat) : Int) = t % 2 ^ 48 := by
  simp only [uint64]
  omega

/-! ## Auxiliary facts: the UTF-8 decoders -/

/-- The three outcomes of `DecodeRuneInString` on a non-empty string: an ASCII
byte; an invalid byte, of width 1; or a well-formed sequence of two to four
bytes, continuation bytes after the first, that decodes the same whatever
follows it. -/
theorem DecodeRuneInString_cases (s0 : Byte) (t : List Byte) :
    (s0.val < 0x80 ∧ DecodeRuneInString (s0 :: t) = (s0.val, 1)) ∨
    (0x80 ≤ s0.val ∧ DecodeRuneInString (s0 :: t) = (RuneError, 1)) ∨
    (0xC2 ≤ s0.val ∧ 2 ≤ (DecodeRuneInString (s0 :: t)).2 ∧
      (DecodeRuneInString (s0 :: t)).2 ≤ (s0 :: t).length ∧
      (∀ i, 1 ≤ i → i < (DecodeRuneInString (s0 :: t)).2 →
        0x80 ≤ ((s0 :: t).getD i 0).val ∧ ((s0 :: t).getD i 0).val ≤ 0xBF) ∧
      ∀ t', DecodeRuneInString ((s0 :: t).take (DecodeRuneInString (s0 :: t)).2 ++ t') =
        DecodeRuneInString (s0 :: t)) := by
  rcases first_spec s0 with ⟨h1, h0⟩ | ⟨h1, h0⟩ | ⟨h1, h0, h2, h3, h4, h5⟩
  · left; refine ⟨h0, ?_⟩; simp [DecodeRuneInString, h1]
  · right; left; refine ⟨h0, ?_⟩; simp [DecodeRuneInString, h1]
  · right
    have hx : ¬ first s0 ≥ 0xF0 := by omega
    have key : ∀ u : List Byte, DecodeRuneInString (s0 :: u) =
        (if (s0 :: u).length < first s0 &&& 7 then (RuneError, 1)
        else
          if ((s0 :: u).getD 1 0).val < (acceptRanges (first s0 >>> 4)).1 ∨
              (acceptRanges (first s0 >>> 4)).2 < ((s0 :: u).getD 1 0).val then (RuneError, 1)
          else if first s0 &&& 7 ≤ 2 then
            (((s0.val &&& 0x1F) <<< 6) ||| (((s0 :: u).getD 1 0).val &&& 0x3F), 2)
          else
            if ((s0 :: u).getD 2 0).val < 0x80 ∨ 0xBF < ((s0 :: u).getD 2 0).val then
              (RuneError, 1)
            else if first s0 &&& 7 ≤ 3 then
              (((s0.val &&& 0x0F) <<< 12) ||| ((((s0 :: u).getD 1 0).val &&& 0x3F) <<< 6) |||
                (((s0 :: u).getD 2 0).val &&& 0x3F), 3)
            else
              if ((s0 :: u).getD 3 0).val < 0x80 ∨ 0xBF < ((s0 :: u).getD 3 0).val then
                (RuneError, 1)
              else
                (((s0.val &&& 0x07) <<< 18) ||| ((((s0 :: u).getD 1 0).val &&& 0x3F) <<< 12) |||
                  ((((s0 :: u).getD 2 0).val &&& 0x3F) <<< 6) |||
                  (((s0 :: u).getD 3 0).val &&& 0x3F), 4)) := by
      intro u
      simp only [DecodeRuneInString, hx, if_false]
    generalize first s0 &&& 7 = sz at *
    generalize acceptRanges (first s0 >>> 4) = acc at *
    by_cases c1 : (s0 :: t).length < sz
    · left; refine ⟨by omega, ?_⟩; rw [key, if_pos c1]
    by_cases c2 : ((s0 :: t).getD 1 0).val < acc.1 ∨ acc.2 < ((s0 :: t).getD 1 0).val
    · left; refine ⟨by omega, ?_⟩; rw [key, if_neg c1, if_pos c2]
    by_cases c3 : sz ≤ 2
    · right
      have e : DecodeRuneInString (s0 :: t) = (((s0.val &&& 0x1F) <<< 6) |||
          (((s0 :: t).getD 1 0).val &&& 0x3F), 2) := by
        rw [key, if_neg c1, if_neg c2, if_pos c3]
      rw [e]
      simp only [List.length_cons] at c1 ⊢
      match t, c1, c2 with
      | [], c1, _ => exact absurd h2 (by simp only [List.length_nil] at c1; omega)
      | s1 :: t1, c1, c2 =>
        refine ⟨h0, le_refl _, by omega, ?_, ?_⟩
        · intro i hi1 hi2
          obtain rfl : i = 1 := by omega
          simp only [List.getD_cons_succ, List.getD_cons_zero] at c2 ⊢
          omega
        · intro t'
          simp only [List.take_succ_cons, List.take_zero, List.cons_append, List.nil_append]
          rw [key, if_neg (by simp only [List.length_cons]; omega), if_neg (by simpa using c2),
            if_pos c3]
          simp
    by_cases c4 : ((s0 :: t).getD 2 0).val < 0x80 ∨ 0xBF < ((s0 :: t).getD 2 0).val
    · left; refine ⟨by omega, ?_⟩; rw [key, if_neg c1, if_neg c2, if_neg c3, if_pos c4]
    by_cases c5 : sz ≤ 3
    · right
      have e : DecodeRuneInString (s0 :: t) = (((s0.val &&& 0x0F) <<< 12) |||
          ((((s0 :: t).getD 1 0).val &&& 0x3F) <<< 6) |||
          (((s0 :: t).getD 2 0).val &&& 0x3F), 3) := by
        rw [key, if_neg c1, if_neg c2, if_neg c3, if_neg c4, if_pos c5]
      rw [e]
      simp only [List.length_cons] at c1 ⊢
      match t, c1, c2, c4 with
      | [], c1, _, _ => exact absurd h2 (by simp only [List.length_nil] at c1; omega)
      | [s1], c1, _, _ =>
        exact absurd c3 (by simp only [List.length_cons, List.length_nil] at c1; omega)
      | s1 :: s2 :: t2, c1, c2, c4 =>
        refine ⟨h0, by omega, by simp only [List.length_cons]; omega, ?_, ?_⟩
        · intro i hi1 hi2
          obtain rfl | rfl : i = 1 ∨ i = 2 := by omega
          · simp only [List.getD_cons_succ, List.getD_cons_zero] at c2 ⊢
            omega
          · simp only [List.getD_cons_succ, List.getD_cons_zero] at c4 ⊢
            omega
        · intro t'
          simp only [List.take_succ_cons, List.take_zero, List.cons_append, List.nil_append]
          rw [key, if_neg (by simp only [List.length_cons]; omega), if_neg (by simpa using c2),
            if_neg c3, if_neg (by simpa using c4), if_pos c5]
          simp
    by_cases c6 : ((s0 :: t).getD 3 0).val < 0x80 ∨ 0xBF < ((s0 :: t).getD 3 0).val
    · left; refine ⟨by omega, ?_⟩
      rw [key, if_neg c1, if_neg c2, if_neg c3, if_neg c4, if_neg c5, if_pos c6]
    right
    have e : DecodeRuneInString (s0 :: t) = (((s0.val &&& 0x07) <<< 18) |||
        ((((s0 :: t).getD 1 0).val &&& 0x3F) <<< 12) |||
        ((((s0 :: t).getD 2 0).val &&& 0x3F) <<< 6) |||
        (((s0 :: t).getD 3 0).val &&& 0x3F), 4) := by
      rw [key, if_neg c1, if_neg c2, if_neg c3, if_neg c4, if_neg c5, if_neg c6]
    rw [e]
    simp only [List.length_cons] at c1 ⊢
    match t, c1, c2, c4, c6 with
    | [], c1, _, _, _ => exact absurd h2 (by simp only [List.length_nil] at c1; omega)
    | [s1], c1, _, _, _ =>
      exact absurd c3 (by simp only [List.length_cons, List.length_nil] at c1; omega)
    | [s1, s2], c1, _, _, _ =>
      exact absurd c5 (by simp only [List.length_cons, List.length_nil] at c1; omega)
    | s1 :: s2 :: s3 :: t3, c1, c2, c4, c6 =>
      refine ⟨h0, by omega, by simp only [List.length_cons]; omega, ?_, ?_⟩
      · intro i hi1 hi2
        obtain rfl | rfl | rfl : i = 1 ∨ i = 2 ∨ i = 3 := by omega
        · simp only [List.getD_cons_succ, List.getD_cons_zero] at c2 ⊢
          omega
        · simp only [List.getD_cons_succ, List.getD_cons_zero] at c4 ⊢
          omega
        · simp only [List.getD_cons_succ, List.getD_cons_zero] at c6 ⊢
          omega
      · intro t'
        simp only [List.take_succ_cons, List.take_zero, List.cons_append, List.nil_append]
        rw [key, if_neg (by simp only [List.length_cons]; omega), if_neg (by simpa using c2),
          if_neg c3, if_neg (by simpa using c4), if_neg c5, if_neg (by simpa using c6)]
        simp

theorem IsSpace_RuneError : IsSpace RuneError = false := by decide

/-- A single byte from `0x80` on is not a rune. -/
theorem DecodeRuneInString_single (b : Byte) (h : 0x80 ≤ b.val) :
    DecodeRuneInString [b] = (RuneError, 1) := by
  rcases DecodeRuneInString_cases b [] with ⟨h1, _⟩ | ⟨_, h2⟩ | ⟨_, h2, h3, _⟩
  · omega
  · exact h2
  · simp only [List.length_cons, List.length_nil] at h3; omega

/-- A rune other than `RuneError` is decoded from a well-formed sequence: it
starts with a byte that is not a continuation byte, lies within the string,
and decodes the same whatever follows it. -/
theorem DecodeRuneInString_valid (s : List Byte) (h : (DecodeRuneInString s).1 ≠ RuneError) :
    1 ≤ (DecodeRuneInString s).2 ∧ (DecodeRuneInString s).2 ≤ s.length ∧
    ((s.getD 0 0).val < 0x80 ∨ 0xC2 ≤ (s.getD 0 0).val) ∧
    (∀ i, 1 ≤ i → i < (DecodeRuneInString s).2 → 0x80 ≤ (s.getD i 0).val) ∧
    ∀ t', DecodeRuneInString (s.take (DecodeRuneInString s).2 ++ t') = DecodeRuneInString s := by
  match s with
  | [] => exact absurd rfl h
  | s0 :: t =>
    rcases DecodeRuneInString_cases s0 t with ⟨h1, h2⟩ | ⟨_, h2⟩ | ⟨h1, h2, h3, h4, h5⟩
    · rw [h2]
      refine ⟨le_refl _, by simp, Or.inl h1, fun i h1 h2 => by omega, fun t' => ?_⟩
      rcases DecodeRuneInString_cases s0 t' with ⟨_, h2'⟩ | ⟨h1', _⟩ | ⟨h1', _⟩
      · simpa using h2'
      · omega
      · omega
    · rw [h2] at h; exact absurd rfl h
    · exact ⟨by omega, h3, Or.inr h1, fun i hi1 hi2 => (h4 i hi1 hi2).1, h5⟩

theorem scanRuneStart_le (s : List Byte) (lim : Int) (fuel : Nat) (start : Int) :
    scanRuneStart s lim fuel start ≤ start := by
  induction fuel generalizing start with
  | zero => simp [scanRuneStart]
  | succ n ih =>
    unfold scanRuneStart
    split_ifs
    · exact le_refl _
    · have := ih (start - 1); omega
    · exact le_refl _

/-- The three outcomes of `DecodeLastRuneInString` on a non-empty string: an
ASCII last byte; an invalid last byte, of width 1; or a sequence of at least
two bytes at the end of the string that `DecodeRuneInString` decodes in
full. -/
theorem DecodeLastRuneInString_cases (u : List Byte) (hu : u ≠ []) :
    ((u.getD (u.length - 1) 0).val < 0x80 ∧
      DecodeLastRuneInString u = ((u.getD (u.length - 1) 0).val, 1)) ∨
    (0x80 ≤ (u.getD (u.length - 1) 0).val ∧ DecodeLastRuneInString u = (RuneError, 1)) ∨
    (0x80 ≤ (u.getD (u.length - 1) 0).val ∧ 2 ≤ (DecodeLastRuneInString u).2 ∧
      (DecodeLastRuneInString u).2 ≤ u.length ∧
      DecodeRuneInString (u.drop (u.length - (DecodeLastRuneInString u).2)) =
        DecodeLastRuneInString u) := by
  have hlen : 0 < u.length := List.length_pos.mpr hu
  have e1 : ((u.length : Int) - 1).toNat = u.length - 1 := by omega
  unfold DecodeLastRuneInString
  simp only [e1, RuneSelf, UTFMax]
  rw [if_neg (by omega)]
  by_cases c1 : (u.getD (u.length - 1) 0).val < 0x80
  · left; exact ⟨c1, by rw [if_pos c1]⟩
  · right
    rw [if_neg c1]
    have hs := scanRuneStart_le u (if (u.length : Int) - (4 : Nat) < 0 then 0
      else (u.length : Int) - (4 : Nat)) 4 ((u.length : Int) - 1 - 1)
    generalize scanRuneStart u (if (u.length : Int) - (4 : Nat) < 0 then 0
      else (u.length : Int) - (4 : Nat)) 4 ((u.length : Int) - 1 - 1) = st at *
    generalize hst : (if st < 0 then 0 else st) = st' at *
    have h0 : 0 ≤ st' ∧ st' < u.length := by
      subst hst; split_ifs <;> omega
    obtain ⟨k, rfl⟩ : ∃ k : Nat, st' = (k : Int) := ⟨st'.toNat, by omega⟩
    simp only [Int.toNat_ofNat]
    have hk : k < u.length := by omega
    have hne : u.drop k ≠ [] := by
      intro h; have := congrArg List.length h; simp at this; omega
    have hp := DecodeRuneInString_size_pos _ hne
    by_cases c2 : (k : Int) + ((DecodeRuneInString (u.drop k)).2 : Nat) ≠ (u.length : Int)
    · left; exact ⟨by omega, by rw [if_pos c2]⟩
    · rw [if_neg c2]
      have c3 : k + (DecodeRuneInString (u.drop k)).2 = u.length := by omega
      by_cases c4 : 2 ≤ (DecodeRuneInString (u.drop k)).2
      · right
        refine ⟨by omega, c4, by omega, ?_⟩
        have : u.length - (DecodeRuneInString (u.drop k)).2 = k := by omega
        rw [this]
      · left
        refine ⟨by omega, ?_⟩
        have hk1 : k = u.length - 1 := by omega
        have hd : u.drop k = [u.getD (u.length - 1) 0] := by
          rw [hk1, List.drop_eq_getElem_cons (by omega : u.length - 1 < u.length)]
          have h2 : List.drop (u.length - 1 + 1) u = [] := List.drop_of_length_le (by omega)
          simp [h2, List.getD_eq_getElem?_getD, List.getElem?_eq_getElem, hlen]
        rw [hd, DecodeRuneInString_single (u.getD (u.length - 1) 0) (by omega)]

/-! ## Auxiliary facts: `TrimLeftFunc` -/

theorem DecodeRuneInString_size_le (s : List Byte) (h : s ≠ []) :
    (DecodeRuneInString s).2 ≤ s.length := by
  match s with
  | [] => exact absurd rfl h
  | s0 :: t =>
    rcases DecodeRuneInString_cases s0 t with ⟨_, h2⟩ | ⟨_, h2⟩ | ⟨_, _, h3, _⟩
    · rw [h2]; simp
    · rw [h2]; simp
    · exact h3

theorem indexFuncLoop_drop (s : List Byte) (fuel i : Nat) (hi : i ≤ s.length) :
    (if indexFuncLoop IsSpace false fuel i (s.drop i) = -1 then []
      else s.drop (indexFuncLoop IsSpace false fuel i (s.drop i)).toNat) =
    trimLeftLoop fuel (s.drop i) := by
  induction fuel generalizing i with
  | zero => simp [indexFuncLoop, trimLeftLoop]
  | succ n ih =>
    unfold indexFuncLoop trimLeftLoop
    by_cases h1 : s.drop i = []
    · simp [h1]
    · rw [if_neg h1, if_neg h1]
      simp only
      by_cases h2 : IsSpace (DecodeRuneInString (s.drop i)).1 = false
      · rw [if_pos h2, if_pos h2, if_neg (by omega)]
        simp
      · rw [if_neg h2, if_neg h2]
        have hle := DecodeRuneInString_size_le _ h1
        simp only [List.length_drop] at hle
        have hlen : i < s.length := by
          by_contra hc
          exact h1 (List.drop_of_length_le (by omega))
        have := ih (i + (DecodeRuneInString (s.drop i)).2) (by omega)
        rw [List.drop_drop] at *
        exact this

theorem TrimLeftFunc_eq (s : List Byte) :
    TrimLeftFunc s IsSpace = trimLeftLoop s.length s := by
  have := indexFuncLoop_drop s s.length 0 (Nat.zero_le _)
  simpa [TrimLeftFunc, indexFunc] using this

theorem trimLeftLoop_nil (fuel : Nat) : trimLeftLoop fuel [] = [] := by
  cases fuel <;> simp [trimLeftLoop]

/-- A string that does not begin with whitespace is left as it is. -/
theorem TrimLeftFunc_of_not_leadingSpace (s : List Byte) (h : leadingSpace s = false) :
    TrimLeftFunc s IsSpace = s := by
  rw [TrimLeftFunc_eq]
  match s with
  | [] => rfl
  | c :: t =>
    simp only [List.length_cons, trimLeftLoop]
    rw [if_neg (by simp), if_pos (by simpa [leadingSpace] using h)]

/-- A leading whitespace rune is dropped. -/
theorem TrimLeftFunc_of_leadingSpace (s : List Byte) (h : leadingSpace s = true) :
    TrimLeftFunc s IsSpace =
      trimLeftLoop (s.length - 1) (s.drop (DecodeRuneInString s).2) := by
  rw [TrimLeftFunc_eq]
  match s with
  | [] => exact absurd h (by decide)
  | c :: t =>
    simp only [List.length_cons, trimLeftLoop, Nat.add_sub_cancel]
    rw [if_neg (by simp), if_neg (by simpa [leadingSpace] using h)]

/-- A whitespace rune in front of a whitespace-only string. -/
theorem AllSpace_rune_append (s pre : List Byte)
    (h : IsSpace (DecodeRuneInString s).1 = true) (hp : AllSpace pre) :
    AllSpace (s.take (DecodeRuneInString s).2 ++ pre) := by
  have hv := DecodeRuneInString_valid s (by
    intro e; rw [e, IsSpace_RuneError] at h; exact absurd h (by decide))
  obtain ⟨h1, h2, -, -, h5⟩ := hv
  have e := h5 pre
  have hl : (s.take (DecodeRuneInString s).2).length = (DecodeRuneInString s).2 := by
    simp only [List.length_take]; omega
  refine AllSpace.rune _ ?_ (by rw [e]; exact h) ?_
  · intro hc
    have := congrArg List.length hc
    simp only [List.length_append, hl, List.length_nil] at this
    omega
  · rw [e, List.drop_append_eq_append_drop, hl, Nat.sub_self,
      List.drop_of_length_le (by omega)]
    simpa using hp

/-- What `TrimLeftFunc` removes is whitespace only, and what it leaves does
not begin with whitespace. -/
theorem trimLeftLoop_spec (fuel : Nat) (s : List Byte) (hf : s.length ≤ fuel) :
    ∃ pre, s = pre ++ trimLeftLoop fuel s ∧ AllSpace pre ∧
      leadingSpace (trimLeftLoop fuel s) = false := by
  induction fuel generalizing s with
  | zero =>
    have : s = [] := List.length_eq_zero.mp (by omega)
    subst this
    exact ⟨[], rfl, AllSpace.nil, by decide⟩
  | succ n ih =>
    by_cases h1 : s = []
    · subst h1
      exact ⟨[], by simp [trimLeftLoop], AllSpace.nil, by rw [trimLeftLoop_nil]; decide⟩
    · simp only [trimLeftLoop, if_neg h1]
      by_cases h2 : IsSpace (DecodeRuneInString s).1 = false
      · rw [if_pos h2]
        exact ⟨[], rfl, AllSpace.nil, h2⟩
      · rw [if_neg h2]
        have h2' : IsSpace (DecodeRuneInString s).1 = true := by simpa using h2
        have hp := DecodeRuneInString_size_pos s h1
        have hl : 0 < s.length := List.length_pos.mpr h1
        obtain ⟨pre, e1, e2, e3⟩ := ih (s.drop (DecodeRuneInString s).2)
          (by simp only [List.length_drop]; omega)
        refine ⟨s.take (DecodeRuneInString s).2 ++ pre, ?_,
          AllSpace_rune_append s pre h2' e2, e3⟩
        rw [List.append_assoc, ← e1, List.take_append_drop]

theorem TrimLeftFunc_spec (s : List Byte) :
    ∃ pre, s = pre ++ TrimLeftFunc s IsSpace ∧ AllSpace pre ∧
      leadingSpace (TrimLeftFunc s IsSpace) = false := by
  rw [TrimLeftFunc_eq]
  exact trimLeftLoop_spec _ s (le_refl _)

/-! ## Auxiliary facts: `TrimRightFunc` -/

/-- A sequence of two bytes or more starts with a leading byte and decodes
the same whatever follows it. -/
theorem DecodeRuneInString_wide (w : List Byte) (h : 2 ≤ (DecodeRuneInString w).2) :
    0xC2 ≤ (w.getD 0 0).val ∧ (DecodeRuneInString w).2 ≤ w.length ∧
    ∀ t', DecodeRuneInString (w.take (DecodeRuneInString w).2 ++ t') = DecodeRuneInString w := by
  match w with
  | [] => simp [DecodeRuneInString] at h
  | s0 :: t =>
    rcases DecodeRuneInString_cases s0 t with ⟨_, h2⟩ | ⟨_, h2⟩ | ⟨h1, _, h3, _, h5⟩
    · rw [h2] at h; simp at h
    · rw [h2] at h; simp at h
    · exact ⟨h1, h3, h5⟩

/-- A byte from `0x80` on that is not followed by a continuation byte is a
rune of width 1. -/
theorem DecodeRuneInString_width_one (b : Byte) (t : List Byte) (hb : 0x80 ≤ b.val)
    (ht : t ≠ [] → (t.getD 0 0).val < 0x80 ∨ 0xC0 ≤ (t.getD 0 0).val) :
    (DecodeRuneInString (b :: t)).2 = 1 := by
  rcases DecodeRuneInString_cases b t with ⟨h1, _⟩ | ⟨_, h2⟩ | ⟨_, h2, h3, h4, _⟩
  · omega
  · rw [h2]
  · have := h4 1 (le_refl _) (by omega)
    match t with
    | [] => simp only [List.length_cons, List.length_nil] at h3; omega
    | c :: t' =>
      have := ht (by simp)
      simp only [List.getD_cons_succ, List.getD_cons_zero] at *
      omega

theorem getD_take_of_lt (s : List Byte) (i j : Nat) (h : j < i) :
    (s.take i).getD j 0 = s.getD j 0 := by
  simp [List.getD_eq_getElem?_getD, List.getElem?_take, h]

theorem getD_drop (s : List Byte) (i j : Nat) : (s.drop i).getD j 0 = s.getD (i + j) 0 := by
  simp [List.getD_eq_getElem?_getD, List.getElem?_drop]

theorem drop_eq_cons_getD (s : List Byte) (k : Nat) (h : k < s.length) :
    s.drop k = s.getD k 0 :: s.drop (k + 1) := by
  rw [List.drop_eq_getElem_cons h]
  simp [List.getD_eq_getElem?_getD, List.getElem?_eq_getElem, h]

theorem lastIndexFuncLoop_succ (s : List Byte) (f : Nat → Bool) (truth : Bool) (fuel i : Nat) :
    lastIndexFuncLoop s f truth (fuel + 1) i =
      if i > 0 then
        if f (DecodeLastRuneInString (s.take i)).1 = truth then
          ((i - (DecodeLastRuneInString (s.take i)).2 : Nat) : Int)
        else lastIndexFuncLoop s f truth fuel (i - (DecodeLastRuneInString (s.take i)).2)
      else -1 := rfl

/-- When `lastIndexFunc` stops at the rune that ends at `i`, the forward
decoding at its first byte ends at `i` as well. -/
theorem take_of_last_rune (s : List Byte) (i : Nat) (hi : i ≤ s.length) (hi0 : 0 < i)
    (hc : i < s.length → ((s.getD i 0).val < 0x80 ∨ 0xC0 ≤ (s.getD i 0).val)) :
    s.take ((if (((i - (DecodeLastRuneInString (s.take i)).2 : Nat) : Int) ≥ 0 ∧
          (s.getD ((i - (DecodeLastRuneInString (s.take i)).2 : Nat) : Int).toNat 0).val ≥
            RuneSelf) then
        ((i - (DecodeLastRuneInString (s.take i)).2 : Nat) : Int) +
          ((DecodeRuneInString (s.drop
            ((i - (DecodeLastRuneInString (s.take i)).2 : Nat) : Int).toNat)).2 : Int)
        else ((i - (DecodeLastRuneInString (s.take i)).2 : Nat) : Int) + 1).toNat) =
      s.take i ∧
    1 ≤ (DecodeLastRuneInString (s.take i)).2 ∧ (DecodeLastRuneInString (s.take i)).2 ≤ i ∧
    (IsSpace (DecodeLastRuneInString (s.take i)).1 = true →
      ((s.getD (i - (DecodeLastRuneInString (s.take i)).2) 0).val < 0x80 ∨
        0xC0 ≤ (s.getD (i - (DecodeLastRuneInString (s.take i)).2) 0).val)) := by
  have hul : (s.take i).length = i := by simp [hi]
  have hune : s.take i ≠ [] := by
    intro h; rw [h] at hul; simp at hul; omega
  have hlast : (s.take i).getD ((s.take i).length - 1) 0 = s.getD (i - 1) 0 := by
    rw [hul]; exact getD_take_of_lt s i (i - 1) (by omega)
  simp only [Int.toNat_ofNat, RuneSelf]
  rcases DecodeLastRuneInString_cases (s.take i) hune with ⟨h1, h2⟩ | ⟨h1, h2⟩ | ⟨h1, h2, h3, h4⟩
  · rw [hlast] at h1 h2
    rw [h2]
    simp only
    refine ⟨?_, le_refl _, by omega, fun _ => Or.inl h1⟩
    rw [if_neg (by omega)]
    congr 1
    omega
  · rw [hlast] at h1
    rw [h2]
    simp only
    refine ⟨?_, le_refl _, by omega, fun h => ?_⟩
    · rw [if_pos ⟨by omega, by omega⟩]
      rw [drop_eq_cons_getD s (i - 1) (by omega)]
      rw [DecodeRuneInString_width_one _ _ h1]
      · congr 1; omega
      · intro hne
        have hlt : i < s.length := by
          by_contra hc'
          exact hne (List.drop_of_length_le (by omega))
        have := hc hlt
        rw [getD_drop, show i - 1 + 1 + 0 = i by omega]
        exact this
    · rw [IsSpace_RuneError] at h; exact absurd h (by decide)
  · rw [hul] at h3 h4
    have hw := DecodeRuneInString_wide _ (by rw [h4]; exact h2)
    rw [h4] at hw
    obtain ⟨w1, w2, w3⟩ := hw
    rw [getD_drop, getD_take_of_lt s i _ (by omega), Nat.add_zero] at w1
    refine ⟨?_, by omega, h3, fun _ => Or.inr (by omega)⟩
    rw [if_pos ⟨by omega, by omega⟩]
    have e : s.drop (i - (DecodeLastRuneInString (s.take i)).2) =
        ((s.take i).drop (i - (DecodeLastRuneInString (s.take i)).2)).take
          (DecodeLastRuneInString (s.take i)).2 ++ s.drop i := by
      generalize (DecodeLastRuneInString (s.take i)).2 = m at *
      have e1 : (s.take i).drop (i - m) = (s.drop (i - m)).take m := by
        rw [List.drop_take]; congr 1; omega
      have e2 : s.drop i = (s.drop (i - m)).drop m := by
        rw [List.drop_drop]; congr 1; omega
      rw [e1, e2, List.take_take, Nat.min_self, List.take_append_drop]
    rw [e, w3 (s.drop i)]
    congr 1
    omega

theorem TrimRightFunc_eq_trimRightAt (s : List Byte) :
    TrimRightFunc s IsSpace = trimRightAt s (lastIndexFunc s IsSpace false) := rfl

theorem trimRightLoop_nil (fuel : Nat) : trimRightLoop fuel [] = [] := by
  cases fuel <;> simp [trimRightLoop]

/-- The index loop of `lastIndexFunc`, followed by the tail of
`TrimRightFunc`, drops whitespace runes from the end of `s[0:i]`, provided
`s[i:]` does not start with a continuation byte. -/
theorem lastIndexFuncLoop_take (s : List Byte) (fuel i : Nat) (hi : i ≤ s.length)
    (hc : i < s.length → ((s.getD i 0).val < 0x80 ∨ 0xC0 ≤ (s.getD i 0).val)) :
    trimRightAt s (lastIndexFuncLoop s IsSpace false fuel i) = trimRightLoop fuel (s.take i) := by
  induction fuel generalizing i with
  | zero => simp [lastIndexFuncLoop, trimRightLoop, trimRightAt]
  | succ n ih =>
    rw [lastIndexFuncLoop_succ]
    by_cases hi0 : i > 0
    · rw [if_pos hi0]
      obtain ⟨h1, h2, h3, h4⟩ := take_of_last_rune s i hi hi0 hc
      have hul : (s.take i).length = i := by simp [hi]
      have hune : s.take i ≠ [] := by
        intro h; rw [h] at hul; simp at hul; omega
      simp only [trimRightLoop, if_neg hune]
      by_cases hsp : IsSpace (DecodeLastRuneInString (s.take i)).1 = false
      · rw [if_pos hsp, if_pos hsp]
        exact h1
      · rw [if_neg hsp, if_neg hsp]
        have hsp' : IsSpace (DecodeLastRuneInString (s.take i)).1 = true := by simpa using hsp
        rw [ih _ (by omega) (fun _ => h4 hsp'), hul, List.take_take]
        congr 2
        omega
    · have : i = 0 := by omega
      subst this
      rw [if_neg hi0]
      simp [trimRightAt, trimRightLoop_nil]

theorem TrimRightFunc_eq (s : List Byte) :
    TrimRightFunc s IsSpace = trimRightLoop s.length s := by
  rw [TrimRightFunc_eq_trimRightAt, lastIndexFunc,
    lastIndexFuncLoop_take s s.length s.length (le_refl _) (fun h => absurd h (lt_irrefl _)),
    List.take_length]

theorem DecodeRuneInString_ascii (b : Byte) (t : List Byte) (h : b.val < 0x80) :
    DecodeRuneInString (b :: t) = (b.val, 1) := by
  rcases DecodeRuneInString_cases b t with ⟨_, h2⟩ | ⟨h1, _⟩ | ⟨h1, _⟩
  · exact h2
  · omega
  · omega

/-- The last byte of a string, when it is ASCII, is its last rune. -/
theorem DecodeLastRuneInString_ascii (u : List Byte) (b : Byte) (h : b.val < 0x80) :
    DecodeLastRuneInString (u ++ [b]) = (b.val, 1) := by
  have hl : (u ++ [b]).getD ((u ++ [b]).length - 1) 0 = b := by
    simp [List.getD_eq_getElem?_getD]
  rcases DecodeLastRuneInString_cases (u ++ [b]) (by simp) with ⟨_, h2⟩ | ⟨h1, _⟩ | ⟨h1, _⟩
  · rw [h2, hl]
  · rw [hl] at h1; omega
  · rw [hl] at h1; omega

/-- A whitespace rune at the end of a string is decoded the same from its
first byte on. -/
theorem DecodeLastRuneInString_space (u : List Byte)
    (h : IsSpace (DecodeLastRuneInString u).1 = true) :
    1 ≤ (DecodeLastRuneInString u).2 ∧ (DecodeLastRuneInString u).2 ≤ u.length ∧
    DecodeRuneInString (u.drop (u.length - (DecodeLastRuneInString u).2)) =
      DecodeLastRuneInString u := by
  by_cases hu : u = []
  · subst hu; exact absurd h (by decide)
  have hlen : 0 < u.length := List.length_pos.mpr hu
  rcases DecodeLastRuneInString_cases u hu with ⟨h1, h2⟩ | ⟨_, h2⟩ | ⟨_, h2, h3, h4⟩
  · rw [h2]
    refine ⟨le_refl _, hlen, ?_⟩
    simp only
    rw [drop_eq_cons_getD u (u.length - 1) (by omega), DecodeRuneInString_ascii _ _ h1]
  · rw [h2, IsSpace_RuneError] at h; exact absurd h (by decide)
  · exact ⟨by omega, h3, h4⟩

theorem AllSpace_append (a b : List Byte) (ha : AllSpace a) (hb : AllSpace b) :
    AllSpace (a ++ b) := by
  induction ha with
  | nil => simpa using hb
  | rune s hs h1 _ ih =>
    have hv := DecodeRuneInString_valid s (by
      intro e; rw [e, IsSpace_RuneError] at h1; exact absurd h1 (by decide))
    obtain ⟨v1, v2, -, -, v5⟩ := hv
    have e : DecodeRuneInString (s ++ b) = DecodeRuneInString s := by
      have := v5 (s.drop (DecodeRuneInString s).2 ++ b)
      rwa [← List.append_assoc, List.take_append_drop] at this
    refine AllSpace.rune _ (by simp [hs]) (by rw [e]; exact h1) ?_
    rw [e, List.drop_append_of_le_length v2]
    exact ih

/-- A whitespace rune is a whitespace-only string. -/
theorem AllSpace_of_rune (w : List Byte) (h : IsSpace (DecodeRuneInString w).1 = true)
    (hl : (DecodeRuneInString w).2 = w.length) : AllSpace w := by
  have hne : w ≠ [] := by
    intro e; subst e; exact absurd h (by decide)
  refine AllSpace.rune w hne h ?_
  rw [hl, List.drop_length]
  exact AllSpace.nil

/-- What `TrimRightFunc` removes is whitespace only, and what it leaves does
not end with whitespace. -/
theorem trimRightLoop_spec (fuel : Nat) (u : List Byte) (hf : u.length ≤ fuel) :
    ∃ suf, u = trimRightLoop fuel u ++ suf ∧ AllSpace suf ∧
      trailingSpace (trimRightLoop fuel u) = false := by
  induction fuel generalizing u with
  | zero =>
    have : u = [] := List.length_eq_zero.mp (by omega)
    subst this
    exact ⟨[], rfl, AllSpace.nil, by decide⟩
  | succ n ih =>
    by_cases h1 : u = []
    · subst h1
      exact ⟨[], by simp [trimRightLoop], AllSpace.nil, by rw [trimRightLoop_nil]; decide⟩
    · simp only [trimRightLoop, if_neg h1]
      by_cases h2 : IsSpace (DecodeLastRuneInString u).1 = false
      · rw [if_pos h2]
        exact ⟨[], by simp, AllSpace.nil, h2⟩
      · rw [if_neg h2]
        have h2' : IsSpace (DecodeLastRuneInString u).1 = true := by simpa using h2
        obtain ⟨d1, d2, d3⟩ := DecodeLastRuneInString_space u h2'
        obtain ⟨suf, e1, e2, e3⟩ := ih (u.take (u.length - (DecodeLastRuneInString u).2))
          (by simp only [List.length_take]; omega)
        refine ⟨suf ++ u.drop (u.length - (DecodeLastRuneInString u).2), ?_, ?_, e3⟩
        · rw [← List.append_assoc, ← e1, List.take_append_drop]
        · refine AllSpace_append _ _ e2 (AllSpace_of_rune _ (by rw [d3]; exact h2') ?_)
          rw [d3]; simp only [List.length_drop]; omega

theorem TrimRightFunc_spec (s : List Byte) :
    ∃ suf, s = TrimRightFunc s IsSpace ++ suf ∧ AllSpace suf ∧
      trailingSpace (TrimRightFunc s IsSpace) = false := by
  rw [TrimRightFunc_eq]
  exact trimRightLoop_spec _ s (le_refl _)

/-- A string that does not end with whitespace, followed by spaces, is
trimmed back to itself. -/
theorem trimRightLoop_append_spaces (y : List Byte) (h : trailingSpace y = false) (k fuel : Nat)
    (hf : y.length + k ≤ fuel) :
    trimRightLoop fuel (y ++ List.replicate k 0x20) = y := by
  induction k generalizing fuel with
  | zero =>
    simp only [List.replicate_zero, List.append_nil]
    match fuel with
    | 0 =>
      have : y = [] := List.length_eq_zero.mp (by omega)
      subst this; rfl
    | n + 1 =>
      simp only [trimRightLoop]
      split_ifs with h1 h2
      · exact h1.symm
      · rfl
      · exact absurd h h2
  | succ k ih =>
    match fuel with
    | 0 => omega
    | n + 1 =>
      rw [List.replicate_succ', ← List.append_assoc]
      simp only [trimRightLoop]
      rw [if_neg (by simp), DecodeLastRuneInString_ascii _ _ (by decide)]
      rw [if_neg (by decide)]
      simp only [List.length_append, List.length_replicate, List.length_cons, List.length_nil]
      rw [show y.length + k + (0 + 1) - 1 = (y ++ List.replicate k (0x20 : Byte)).length by
        simp]
      rw [List.take_left']
      · exact ih n (by omega)
      · rfl

theorem TrimRightFunc_append_spaces (y : List Byte) (h : trailingSpace y = false) (k : Nat) :
    TrimRightFunc (y ++ List.replicate k 0x20) IsSpace = y := by
  rw [TrimRightFunc_eq]
  exact trimRightLoop_append_spaces y h k _ (by simp)

/-! ## Auxiliary facts: `TrimSpace` -/

theorem asciiSpace_eq_IsSpace (c : Byte) (h : c.val < 0x80) : asciiSpace c = IsSpace c.val := by
  have h1 : c.val ≤ 0xFF := by omega
  have h2 : ¬ c.val = 0x85 := by omega
  have h3 : ¬ c.val = 0xA0 := by omega
  simp only [asciiSpace, IsSpace, if_pos h1, h2, h3, or_false]

/-- The second loop of `TrimSpace` computes `TrimRightFunc`. -/
theorem trimSpaceStop_eq (s : List Byte) (n : Nat) (hn : n ≤ s.length) :
    trimSpaceStop s n = TrimRightFunc (s.take n) IsSpace := by
  induction n with
  | zero => simp [trimSpaceStop, TrimRightFunc_eq, trimRightLoop_nil]
  | succ n ih =>
    have e : s.take (n + 1) = s.take n ++ [s.getD n 0] := by
      rw [List.take_succ]
      simp [List.getD_eq_getElem?_getD, List.getElem?_eq_getElem (show n < s.length by omega)]
    simp only [trimSpaceStop, RuneSelf]
    by_cases h1 : (s.getD n 0).val ≥ 0x80
    · rw [if_pos h1]
    · rw [if_neg h1]
      have hd := DecodeLastRuneInString_ascii (s.take n) (s.getD n 0) (by omega)
      have hl : (s.take n ++ [s.getD n 0]).length = n + 1 := by simp; omega
      have hne : s.take n ++ [s.getD n 0] ≠ [] := by simp
      have key : TrimRightFunc (s.take (n + 1)) IsSpace =
          if asciiSpace (s.getD n 0) = false then s.take (n + 1)
          else TrimRightFunc (s.take n) IsSpace := by
        rw [e, TrimRightFunc_eq, hl]
        simp only [trimRightLoop]
        rw [if_neg hne, hd, asciiSpace_eq_IsSpace _ (by omega)]
        by_cases h2 : IsSpace (s.getD n 0).val = false
        · rw [if_pos h2, if_pos h2]
        · rw [if_neg h2, if_neg h2, TrimRightFunc_eq, hl]
          simp only [Nat.add_sub_cancel]
          have hl2 : (s.take n).length = n := by simp; omega
          rw [hl2]
          have tl : ∀ (p : List Byte) (c : Byte) (m : Nat), p.length = m →
              List.take m (p ++ [c]) = p := by
            intro p c m h; subst h; exact List.take_left' rfl
          rw [tl _ _ _ hl2]
      rw [key]
      by_cases h2 : asciiSpace (s.getD n 0) = false
      · rw [if_pos h2, if_pos h2]
      · rw [if_neg h2, if_neg h2, ih (by omega)]

/-- The fast path of `TrimSpace` for ASCII computes `TrimFunc`. -/
theorem TrimSpace_eq_TrimFunc (s : List Byte) : TrimSpace s = TrimFunc s IsSpace := by
  unfold TrimSpace
  induction s with
  | nil => rfl
  | cons c rest ih =>
    simp only [trimSpaceStart, RuneSelf]
    by_cases h1 : c.val ≥ 0x80
    · rw [if_pos h1]
    · rw [if_neg h1]
      have hd := DecodeRuneInString_ascii c rest (by omega)
      have hs := asciiSpace_eq_IsSpace c (by omega)
      by_cases h2 : asciiSpace c = false
      · rw [if_pos h2, trimSpaceStop_eq _ _ (le_refl _), List.take_length]
        unfold TrimFunc
        rw [TrimLeftFunc_of_not_leadingSpace]
        simp only [leadingSpace, hd, ← hs, h2]
      · rw [if_neg h2, ih]
        unfold TrimFunc
        congr 1
        rw [TrimLeftFunc_of_leadingSpace (c :: rest)
          (by simpa [leadingSpace, hd, ← hs] using h2), hd, TrimLeftFunc_eq]
        rfl

/-- A string that begins with whitespace still does when it is extended. -/
theorem leadingSpace_append (y t : List Byte) (h : leadingSpace y = true) :
    leadingSpace (y ++ t) = true := by
  have hv := DecodeRuneInString_valid y (by
    intro e; simp only [leadingSpace, e, IsSpace_RuneError] at h; exact absurd h (by decide))
  obtain ⟨-, -, -, -, v5⟩ := hv
  have := v5 (y.drop (DecodeRuneInString y).2 ++ t)
  rw [← List.append_assoc, List.take_append_drop] at this
  simp only [leadingSpace, this]
  exact h

/-- Spaces after a non-empty string do not make it begin with whitespace. -/
theorem leadingSpace_append_spaces (s : List Byte) (hs : s ≠ []) (k : Nat)
    (h : leadingSpace (s ++ List.replicate k 0x20) = true) : leadingSpace s = true := by
  have hv := DecodeRuneInString_valid (s ++ List.replicate k 0x20) (by
    intro e; simp only [leadingSpace, e, IsSpace_RuneError] at h; exact absurd h (by decide))
  obtain ⟨-, v2, -, v4, v5⟩ := hv
  have hl : 0 < s.length := List.length_pos.mpr hs
  have hn : (DecodeRuneInString (s ++ List.replicate k 0x20)).2 ≤ s.length := by
    by_contra hc
    have := v4 s.length hl (by omega)
    simp only [List.length_append, List.length_replicate] at v2
    rw [List.getD_eq_getElem?_getD, List.getElem?_append_right (le_refl _), Nat.sub_self,
      List.getElem?_replicate, if_pos (by omega)] at this
    exact absurd this (by decide)
  have e := v5 (s.drop (DecodeRuneInString (s ++ List.replicate k 0x20)).2)
  rw [List.take_append_of_le_length hn, List.take_append_drop] at e
  simp only [leadingSpace, e]
  exact h

/-- What `TrimSpace` returns: the string without a whitespace-only prefix and
a whitespace-only suffix, neither beginning nor ending with whitespace. -/
theorem TrimSpace_spec (s : List Byte) :
    ∃ pre suf, s = pre ++ TrimSpace s ++ suf ∧ AllSpace pre ∧ AllSpace suf ∧
      leadingSpace (TrimSpace s) = false ∧ trailingSpace (TrimSpace s) = false := by
  rw [TrimSpace_eq_TrimFunc]
  unfold TrimFunc
  obtain ⟨pre, e1, e2, e3⟩ := TrimLeftFunc_spec s
  obtain ⟨suf, f1, f2, f3⟩ := TrimRightFunc_spec (TrimLeftFunc s IsSpace)
  refine ⟨pre, suf, ?_, e2, f2, ?_, f3⟩
  · rw [List.append_assoc, ← f1, ← e1]
  · by_contra hc
    have hc' : leadingSpace (TrimRightFunc (TrimLeftFunc s IsSpace) IsSpace) = true := by
      simpa using hc
    have := leadingSpace_append _ suf hc'
    rw [← f1, e3] at this
    exact absurd this (by decide)

theorem TrimSpace_length_le (s : List Byte) : (TrimSpace s).length ≤ s.length := by
  obtain ⟨pre, suf, e, -⟩ := TrimSpace_spec s
  have := congrArg List.length e
  simp only [List.length_append] at this
  omega

/-- A string that neither begins nor ends with whitespace, padded with spaces
on the right, is trimmed back to itself. -/
theorem TrimSpace_append_spaces (s : List Byte) (h1 : leadingSpace s = false)
    (h2 : trailingSpace s = false) (k : Nat) :
    TrimSpace (s ++ List.replicate k 0x20) = s := by
  rw [TrimSpace_eq_TrimFunc]
  unfold TrimFunc
  by_cases hs : s = []
  · subst hs
    obtain ⟨pre, e1, -, e3⟩ := TrimLeftFunc_spec ([] ++ List.replicate k 0x20)
    have hz : TrimLeftFunc ([] ++ List.replicate k 0x20) IsSpace = [] := by
      generalize TrimLeftFunc ([] ++ List.replicate k 0x20) IsSpace = z at *
      have e4 : z = List.replicate (k - pre.length) 0x20 := by
        have := congrArg (List.drop pre.length) e1
        simp only [List.nil_append, List.drop_replicate, List.drop_left] at this
        exact this.symm
      match hk : k - pre.length with
      | 0 => rw [e4, hk]; rfl
      | j + 1 =>
        rw [e4, hk] at e3
        exact absurd e3 (by
          simp only [leadingSpace, List.replicate_succ,
            DecodeRuneInString_ascii (0x20 : Byte) _ (by decide)]
          decide)
    rw [hz]
    rfl
  · have hl : leadingSpace (s ++ List.replicate k 0x20) = false := by
      by_contra hc
      have := leadingSpace_append_spaces s hs k (by simpa using hc)
      rw [h1] at this
      exact absurd this (by decide)
    rw [TrimLeftFunc_of_not_leadingSpace _ hl, TrimRightFunc_append_spaces s h2 k]

/-! ## Auxiliary facts: decoding an encoding -/

/-- Decoding an encoding gives the record back, up to the timestamp cut to 48
bits and the identifiers padded and trimmed. -/
theorem decodedRecord_Bytes (tag : Byte) (r : ParticipantPosition) :
    decodedRecord (r.Bytes tag) =
      { r with Timestamp := ((uint64 r.Timestamp % 2 ^ 48 : Nat) : Int),
               Mpid := TrimSpace (padField 4 r.Mpid),
               Stock := TrimSpace (padField 8 r.Stock) } := by
  have ht : (decodedRecord (r.Bytes tag)).Timestamp = ((uint64 r.Timestamp % 2 ^ 48 : Nat) : Int) := by
    rw [decodedRecord_Timestamp, Bytes_readUint48]
  obtain ⟨m0, m1, m2, m3, k0, k1, k2, k3, k4, k5, k6, k7, e1, e2, e⟩ := Bytes_explicit tag r
  rw [e] at ht ⊢
  rw [e1, e2]
  have hsl : uint16 ((byte r.StockLocate.val).val ||| ((byte (r.StockLocate.val >>> 8)).val <<< 8)) =
      r.StockLocate := by
    apply Fin.ext
    have := r.StockLocate.isLt
    rw [Uint16_val]
    simp only [byte_val, Nat.shiftRight_eq_div_pow]
    omega
  have htn : uint16 ((byte r.TrackingNumber.val).val |||
      ((byte (r.TrackingNumber.val >>> 8)).val <<< 8)) = r.TrackingNumber := by
    apply Fin.ext
    have := r.TrackingNumber.isLt
    rw [Uint16_val]
    simp only [byte_val, Nat.shiftRight_eq_div_pow]
    omega
  have hp : (if (if r.PrimaryMM = true then (0x59 : Byte) else 0x4E) = 0x59 then true else false) =
      r.PrimaryMM := by
    cases r.PrimaryMM <;> decide
  cases r with
  | mk ts mp st sl tn pm mo sa =>
    simp only [decodedRecord, List.getD_cons_succ, List.getD_cons_zero] at ht ⊢
    simp only [ParticipantPosition.mk.injEq]
    exact ⟨ht, rfl, rfl, hsl, htn, hp, trivial, trivial⟩

/-! ## Auxiliary facts: the registry -/

theorem Registry_get_put (reg : Registry) (k k' : List Byte) (v : List ParticipantPosition) :
    (reg.put k v).get k' = if k' = k then v else reg.get k' := by
  unfold Registry.put Registry.get
  by_cases h : k' = k
  · simp only [if_pos h, Option.getD_some]
  · simp only [if_neg h]

/-- One call of the decoder: either the buffer is not 26 bytes long and the
call fails and leaves the registry alone, or it is and the call appends the
record it returns to the history of its Mpid. -/
theorem ParseParticipantPosition_step (data : List Byte) (reg : Registry) :
    ∃ res, ParseParticipantPosition data reg = some res ∧
      ((data.length ≠ 26 ∧ res.err ≠ none ∧ res.pp = ParticipantPosition.zero ∧
          res.MarketParticipants = reg) ∨
        (data.length = 26 ∧ res.err = none ∧ res.pp = decodedRecord data ∧
          res.MarketParticipants = reg.put res.pp.Mpid (reg.get res.pp.Mpid ++ [res.pp]))) := by
  by_cases h : data.length = 26
  · exact ⟨_, ParseParticipantPosition_of_length data reg h, Or.inr ⟨h, rfl, rfl, rfl⟩⟩
  · exact ⟨_, ParseParticipantPosition_of_length_ne data reg h,
      Or.inl ⟨h, by simp, rfl, rfl⟩⟩

theorem parseAll_cons (data : List Byte) (rest : List (List Byte)) (reg : Registry)
    (res : ParseResult) (results : List ParseResult) (reg' : Registry)
    (h1 : ParseParticipantPosition data reg = some res)
    (h2 : parseAll rest res.MarketParticipants = some (results, reg')) :
    parseAll (data :: rest) reg = some (res :: results, reg') := by
  simp only [parseAll, h1, Option.bind_eq_bind, Option.some_bind, h2]
  rfl

/-- What every record the decoder assembles satisfies: a timestamp in
`[0, 2^48)`, an Mpid of at most 4 bytes and a Stock of at most 8 bytes, neither
beginning nor ending with whitespace. -/
theorem decodedRecord_canonical (data : List Byte) :
    0 ≤ (decodedRecord data).Timestamp ∧ (decodedRecord data).Timestamp < 2 ^ 48 ∧
    (decodedRecord data).Mpid.length ≤ 4 ∧ (decodedRecord data).Stock.length ≤ 8 ∧
    leadingSpace (decodedRecord data).Mpid = false ∧
    trailingSpace (decodedRecord data).Mpid = false ∧
    leadingSpace (decodedRecord data).Stock = false ∧
    trailingSpace (decodedRecord data).Stock = false := by
  obtain ⟨-, -, -, -, -, l1, t1⟩ := TrimSpace_spec ((data.drop 11).take 4)
  obtain ⟨-, -, -, -, -, l2, t2⟩ := TrimSpace_spec ((data.drop 15).take 8)
  have n1 := TrimSpace_length_le ((data.drop 11).take 4)
  have n2 := TrimSpace_length_le ((data.drop 15).take 8)
  simp only [List.length_take, List.length_drop] at n1 n2
  refine ⟨?_, ?_, ?_, ?_, l1, t1, l2, t2⟩
  · rw [decodedRecord_Timestamp]; exact Int.natCast_nonneg _
  · rw [decodedRecord_Timestamp]; exact_mod_cast readUint48_lt data 5
  · show (TrimSpace _).length ≤ 4; omega
  · show (TrimSpace _).length ≤ 8; omega

/-- One call of the decoder keeps the invariant of the registry. -/
theorem RegistryInv_step (data : List Byte) (reg : Registry) (h : RegistryInv reg) :
    ∃ res, ParseParticipantPosition data reg = some res ∧
      RegistryInv res.MarketParticipants := by
  obtain ⟨res, h1, h2⟩ := ParseParticipantPosition_step data reg
  refine ⟨res, h1, ?_⟩
  rcases h2 with ⟨-, -, -, g4⟩ | ⟨-, -, g3, g4⟩
  · rw [g4]; exact h
  · rw [g4]
    intro k hist hk
    unfold Registry.put at hk
    by_cases hkm : k = res.pp.Mpid
    · rw [if_pos hkm] at hk
      have e : hist = reg.get res.pp.Mpid ++ [res.pp] := (Option.some.inj hk).symm
      subst e
      refine ⟨by simp, fun p hp => ?_⟩
      rcases List.mem_append.mp hp with hp | hp
      · unfold Registry.get at hp
        cases hr : reg res.pp.Mpid with
        | none => rw [hr] at hp; simp at hp
        | some old =>
          rw [hr] at hp
          rw [hkm]
          exact (h _ old hr).2 p (by simpa using hp)
      · have e : p = res.pp := by simpa using hp
        obtain ⟨c1, c2, -, -, c5, c6, c7, c8⟩ := decodedRecord_canonical data
        rw [e, hkm]
        rw [g3]
        exact ⟨rfl, c1, c2, c5, c6, c7, c8⟩
    · rw [if_neg hkm] at hk
      exact h k hist hk

/-- A run of calls keeps the invariant of the registry. -/
theorem RegistryInv_parseAll (bufs : List (List Byte)) (reg : Registry) (h : RegistryInv reg) :
    ∃ results reg', parseAll bufs reg = some (results, reg') ∧ RegistryInv reg' := by
  induction bufs generalizing reg with
  | nil => exact ⟨[], reg, rfl, h⟩
  | cons data rest ih =>
    obtain ⟨res, h1, h2⟩ := RegistryInv_step data reg h
    obtain ⟨results, reg', e1, e2⟩ := ih res.MarketParticipants h2
    exact ⟨res :: results, reg', parseAll_cons _ _ _ _ _ _ h1 e1, e2⟩

theorem RegistryInv_empty : RegistryInv Registry.empty := by
  intro k h hk
  exact absurd hk (by simp [Registry.empty])

/-- What a call of the decoder returns does not depend on the registry: on a
buffer of 26 bytes it is `decodedRecord` of the buffer and no error, on any
other buffer an error. -/
theorem ParseParticipantPosition_returns (b : List Byte) (reg : Registry) (r : ParseResult)
    (h : ParseParticipantPosition b reg = some r) :
    (b.length = 26 → r.err = none ∧ r.pp = decodedRecord b) ∧
    (b.length ≠ 26 → r.err ≠ none) := by
  obtain ⟨res, h1, h2⟩ := ParseParticipantPosition_step b reg
  rw [h] at h1
  obtain rfl : r = res := Option.some.inj h1
  rcases h2 with ⟨g1, g2, -, -⟩ | ⟨g1, g2, g3, -⟩
  · exact ⟨fun h => absurd h g1, fun _ => g2⟩
  · exact ⟨fun _ => ⟨g2, g3⟩, fun h => absurd g1 h⟩

/-- A run never panics; its results are, buffer by buffer, what the decoder
returns; and it leaves under every identifier `m` its old history followed by
the records returned for the buffers filed under `m`, in call order. -/
theorem parseAll_run (bufs : List (List Byte)) (reg : Registry) :
    ∃ results reg', parseAll bufs reg = some (results, reg') ∧
      List.Forall₂ (fun b r => ∃ regb, ParseParticipantPosition b regb = some r) bufs results ∧
      ∀ m, reg'.get m = reg.get m ++
        ((List.zip bufs results).filter (fun br => hasMpid m br.1)).map (fun br => br.2.pp) := by
  induction bufs generalizing reg with
  | nil => exact ⟨[], reg, rfl, List.Forall₂.nil, fun m => by simp⟩
  | cons data rest ih =>
    obtain ⟨res, h1, h2⟩ := ParseParticipantPosition_step data reg
    obtain ⟨results, reg', e1, e2, e3⟩ := ih res.MarketParticipants
    refine ⟨res :: results, reg', parseAll_cons _ _ _ _ _ _ h1 e1,
      List.Forall₂.cons ⟨reg, h1⟩ e2, fun m => ?_⟩
    rw [e3 m, List.zip_cons_cons, List.filter_cons]
    rcases h2 with ⟨g1, -, -, g4⟩ | ⟨g1, -, g3, g4⟩
    · have hf : hasMpid m data = false := by simp [hasMpid, g1]
      rw [g4]
      simp only [hf]
      rfl
    · have hk : res.pp.Mpid = TrimSpace ((data.drop 11).take 4) := by rw [g3]; rfl
      rw [g4, Registry_get_put]
      by_cases hm : m = res.pp.Mpid
      · subst hm
        have hf : hasMpid res.pp.Mpid data = true := by
          simp only [hasMpid, g1, decide_True, Bool.true_and, decide_eq_true_eq]
          rw [hk]
        rw [if_pos rfl]
        simp only [hf, if_true, List.map_cons]
        simp
      · have hf : hasMpid m data = false := by
          simp only [hasMpid, g1, decide_True, Bool.true_and, decide_eq_false_iff_not]
          rw [← hk]; exact fun h => hm h.symm
        rw [if_neg hm]
        simp only [hf]
        rfl

theorem filter_zip_length (p : List Byte → Bool) (bufs : List (List Byte))
    (results : List ParseResult) (h : bufs.length = results.length) :
    ((List.zip bufs results).filter (fun br => p br.1)).length = (bufs.filter p).length := by
  induction bufs generalizing results with
  | nil => simp
  | cons b rest ih =>
    match results, h with
    | r :: rs, h =>
      have := ih rs (by simpa using h)
      simp only [List.zip_cons_cons, List.filter_cons]
      by_cases hp : p b = true
      · simp only [hp, if_true, List.length_cons, this]
      · simp only [hp, if_false, this, Bool.false_eq_true]

/-! ## Auxiliary facts: display and canonical buffers -/

set_option maxRecDepth 100000 in
theorem MMMode_unknown_card :
    (Finset.univ.filter (fun m : Byte => MMMode.String m = "Unknown MMMode")).card = 251 := by
  decide

/-- A record in the decoder's range is decoded from its encoding as it is:
timestamp in `[0, 2^48)`, identifiers that fit their fields and neither begin
nor end with whitespace. -/
theorem decodedRecord_Bytes_of_canonical (tag : Byte) (r : ParticipantPosition)
    (ht0 : 0 ≤ r.Timestamp) (ht1 : r.Timestamp < 2 ^ 48)
    (hm : r.Mpid.length ≤ 4) (hs : r.Stock.length ≤ 8)
    (hml : leadingSpace r.Mpid = false) (hmt : trailingSpace r.Mpid = false)
    (hsl : leadingSpace r.Stock = false) (hst : trailingSpace r.Stock = false) :
    decodedRecord (r.Bytes tag) = r := by
  rw [decodedRecord_Bytes]
  have e1 : padField 4 r.Mpid = r.Mpid ++ List.replicate (4 - r.Mpid.length) 0x20 := by
    simp only [padField, List.take_of_length_le hm]
  have e2 : padField 8 r.Stock = r.Stock ++ List.replicate (8 - r.Stock.length) 0x20 := by
    simp only [padField, List.take_of_length_le hs]
  rw [e1, e2, TrimSpace_append_spaces _ hml hmt, TrimSpace_append_spaces _ hsl hst, uint64_mod,
    Int.emod_eq_of_lt ht0 ht1]

theorem uint64_natCast (n : Nat) (h : n < 2 ^ 64) : uint64 (n : Int) = n := by
  simp only [uint64]
  omega

/-- A field that is a string followed by spaces is what padding the string to
the width of the field gives. -/
theorem padField_of_append_spaces (wid : Nat) (field s : List Byte) (k : Nat)
    (hf : field = s ++ List.replicate k 0x20) (hl : field.length = wid) :
    padField wid s = field := by
  have := congrArg List.length hf
  simp only [List.length_append, List.length_replicate] at this
  rw [hf]
  simp only [padField]
  rw [List.take_of_length_le (by omega)]
  congr 2
  omega

/-- The encoding of the record decoded from a buffer of 26 bytes: the buffer
itself in bytes 1–10, 24 and 25, the tag in byte 0, the trimmed identifiers
padded again, and 'Y' or 'N' in byte 23. -/
theorem Bytes_decodedRecord (tag : Byte) (b : List Byte) :
    (decodedRecord b).Bytes tag =
      [tag, b.getD 1 0, b.getD 2 0, b.getD 3 0, b.getD 4 0, b.getD 5 0, b.getD 6 0,
        b.getD 7 0, b.getD 8 0, b.getD 9 0, b.getD 10 0] ++
      padField 4 (TrimSpace ((b.drop 11).take 4)) ++
      padField 8 (TrimSpace ((b.drop 15).take 8)) ++
      [if b.getD 23 0 = 0x59 then 0x59 else 0x4E, b.getD 24 0, b.getD 25 0] := by
  have ht := decodedRecord_Timestamp b
  have hlt := readUint48_lt b 5
  have hu : uint64 (decodedRecord b).Timestamp = readUint48 b 5 := by
    rw [ht]; exact uint64_natCast _ (by omega)
  have h1 : (decodedRecord b).StockLocate.val = (b.getD 1 0).val * 256 + (b.getD 2 0).val :=
    Uint16_val _ _
  have h2 : (decodedRecord b).TrackingNumber.val = (b.getD 3 0).val * 256 + (b.getD 4 0).val :=
    Uint16_val _ _
  have hp : (if (decodedRecord b).PrimaryMM = true then (0x59 : Byte) else 0x4E) =
      if b.getD 23 0 = 0x59 then 0x59 else 0x4E := by
    simp only [decodedRecord]
    by_cases hy : b.getD 23 0 = 0x59 <;> simp [hy]
  rw [Bytes_eq, hu, hp]
  have i1 := (b.getD 1 0).isLt
  have i2 := (b.getD 2 0).isLt
  have i3 := (b.getD 3 0).isLt
  have i4 := (b.getD 4 0).isLt
  have i5 := (b.getD 5 0).isLt
  have i6 := (b.getD 6 0).isLt
  have i7 := (b.getD 7 0).isLt
  have i8 := (b.getD 8 0).isLt
  have i9 := (b.getD 9 0).isLt
  have i10 := (b.getD 10 0).isLt
  have g1 : byte ((decodedRecord b).StockLocate.val >>> 8) = b.getD 1 0 := by
    apply Fin.ext; rw [byte_val, h1, Nat.shiftRight_eq_div_pow]; omega
  have g2 : byte (decodedRecord b).StockLocate.val = b.getD 2 0 := by
    apply Fin.ext; rw [byte_val, h1]; omega
  have g3 : byte ((decodedRecord b).TrackingNumber.val >>> 8) = b.getD 3 0 := by
    apply Fin.ext; rw [byte_val, h2, Nat.shiftRight_eq_div_pow]; omega
  have g4 : byte (decodedRecord b).TrackingNumber.val = b.getD 4 0 := by
    apply Fin.ext; rw [byte_val, h2]; omega
  have g5 : byte (readUint48 b 5 >>> 40) = b.getD 5 0 := by
    apply Fin.ext; rw [byte_val, Nat.shiftRight_eq_div_pow]; simp only [readUint48, Nat.reduceAdd]; omega
  have g6 : byte (readUint48 b 5 >>> 32) = b.getD 6 0 := by
    apply Fin.ext; rw [byte_val, Nat.shiftRight_eq_div_pow]; simp only [readUint48, Nat.reduceAdd]; omega
  have g7 : byte (readUint48 b 5 >>> 24) = b.getD 7 0 := by
    apply Fin.ext; rw [byte_val, Nat.shiftRight_eq_div_pow]; simp only [readUint48, Nat.reduceAdd]; omega
  have g8 : byte (readUint48 b 5 >>> 16) = b.getD 8 0 := by
    apply Fin.ext; rw [byte_val, Nat.shiftRight_eq_div_pow]; simp only [readUint48, Nat.reduceAdd]; omega
  have g9 : byte (readUint48 b 5 >>> 8) = b.getD 9 0 := by
    apply Fin.ext; rw [byte_val, Nat.shiftRight_eq_div_pow]; simp only [readUint48, Nat.reduceAdd]; omega
  have g10 : byte (readUint48 b 5) = b.getD 10 0 := by
    apply Fin.ext; rw [byte_val]; simp only [readUint48, Nat.reduceAdd]; omega
  rw [g1, g2, g3, g4, g5, g6, g7, g8, g9, g10]
  rfl

/-- A buffer of 26 bytes cut into its header, its two identifier fields and
its three tag bytes. -/
theorem buffer_split (b : List Byte) (h : b.length = 26) :
    b = [b.getD 0 0, b.getD 1 0, b.getD 2 0, b.getD 3 0, b.getD 4 0, b.getD 5 0, b.getD 6 0,
        b.getD 7 0, b.getD 8 0, b.getD 9 0, b.getD 10 0] ++
      (b.drop 11).take 4 ++ (b.drop 15).take 8 ++
      [b.getD 23 0, b.getD 24 0, b.getD 25 0] := by
  obtain ⟨b0, b1, b2, b3, b4, b5, b6, b7, b8, b9, b10, b11, b12, b13, b14, b15, b16, b17,
    b18, b19, b20, b21, b22, b23, b24, b25, rfl⟩ := length_26_cases b h
  rfl

theorem padField_take (wid : Nat) (s : List Byte) : padField wid (s.take wid) = padField wid s := by
  simp only [padField, List.take_take, Nat.min_self, List.length_take]
  congr 2
  omega

/-! ## The claims -/

/-- C1. Round trip: a record whose timestamp is in `[0, 2^48)`, whose Mpid has
at most 4 bytes and Stock at most 8 bytes, and whose Mpid and Stock neither
begin nor end with whitespace (a rune for which Go's `unicode.IsSpace` holds)
is decoded from its encoding without error and equal in every field. -/
theorem C1_round_trip (tag : Byte) (r : ParticipantPosition) (reg : Registry)
    (ht0 : 0 ≤ r.Timestamp) (ht1 : r.Timestamp < 2 ^ 48)
    (hm : r.Mpid.length ≤ 4) (hs : r.Stock.length ≤ 8)
    (hml : leadingSpace r.Mpid = false) (hmt : trailingSpace r.Mpid = false)
    (hsl : leadingSpace r.Stock = false) (hst : trailingSpace r.Stock = false) :
    ∃ res, ParseParticipantPosition (r.Bytes tag) reg = some res ∧ res.err = none ∧
      res.pp = r := by
  refine ⟨_, ParseParticipantPosition_of_length _ reg (Bytes_length tag r), rfl, ?_⟩
  show decodedRecord (r.Bytes tag) = r
  rw [decodedRecord_Bytes]
  have e1 : padField 4 r.Mpid = r.Mpid ++ List.replicate (4 - r.Mpid.length) 0x20 := by
    simp only [padField, List.take_of_length_le hm]
  have e2 : padField 8 r.Stock = r.Stock ++ List.replicate (8 - r.Stock.length) 0x20 := by
    simp only [padField, List.take_of_length_le hs]
  rw [e1, e2, TrimSpace_append_spaces _ hml hmt, TrimSpace_append_spaces _ hsl hst, uint64_mod,
    Int.emod_eq_of_lt ht0 ht1]

/-- C1 at `sampleRecord`. -/
theorem C1_round_trip_witness :
    (0 ≤ sampleRecord.Timestamp ∧ sampleRecord.Timestamp < 2 ^ 48 ∧
      sampleRecord.Mpid.length ≤ 4 ∧ sampleRecord.Stock.length ≤ 8 ∧
      leadingSpace sampleRecord.Mpid = false ∧ trailingSpace sampleRecord.Mpid = false ∧
      leadingSpace sampleRecord.Stock = false ∧ trailingSpace sampleRecord.Stock = false) ∧
    ∃ res, ParseParticipantPosition (sampleRecord.Bytes 0x4C) Registry.empty = some res ∧
      res.err = none ∧ res.pp = sampleRecord :=
  ⟨⟨by decide, by decide, by decide, by decide, by decide, by decide, by decide, by decide⟩,
    C1_round_trip 0x4C sampleRecord Registry.empty (by decide) (by decide) (by decide)
      (by decide) (by decide) (by decide) (by decide) (by decide)⟩

/-- C2. For a record whose timestamp, cast to an unsigned 64-bit value as the
encoder does, exceeds 48 bits, decoding the encoding succeeds and the decoded
timestamp is that value modulo `2^48`, which is also the signed timestamp
modulo `2^48`. -/
theorem C2_truncation_law (tag : Byte) (r : ParticipantPosition) (reg : Registry)
    (_h : 2 ^ 48 ≤ uint64 r.Timestamp) :
    ∃ res, ParseParticipantPosition (r.Bytes tag) reg = some res ∧ res.err = none ∧
      res.pp.Timestamp = ((uint64 r.Timestamp % 2 ^ 48 : Nat) : Int) ∧
      res.pp.Timestamp = r.Timestamp % 2 ^ 48 := by
  obtain ⟨res, h1, h2, -, h4⟩ := Parse_Bytes tag r reg
  exact ⟨res, h1, h2, h4, by rw [h4, uint64_mod]⟩

/-- C2 at `lateRecord`. -/
theorem C2_truncation_law_witness :
    2 ^ 48 ≤ uint64 lateRecord.Timestamp ∧
    ∃ res, ParseParticipantPosition (lateRecord.Bytes 0x4C) Registry.empty = some res ∧
      res.err = none ∧
      res.pp.Timestamp = ((uint64 lateRecord.Timestamp % 2 ^ 48 : Nat) : Int) ∧
      res.pp.Timestamp = lateRecord.Timestamp % 2 ^ 48 :=
  ⟨by decide, C2_truncation_law 0x4C lateRecord Registry.empty (by decide)⟩

/-- C3. Size guard: the decoder never panics; it returns an error exactly when
the buffer is not 26 bytes long, and then the error is the invalid-packet-size
error for expected 26 and the actual length, next to the zero record; a
buffer of 26 bytes, whatever it holds, is decoded without error. -/
theorem C3_size_guard (data : List Byte) (reg : Registry) :
    ∃ res, ParseParticipantPosition data reg = some res ∧
      (res.err ≠ none ↔ data.length ≠ 26) ∧
      (data.length ≠ 26 →
        res.err = some (NewInvalidPacketSize 26 data.length) ∧
        res.pp = ParticipantPosition.zero) ∧
      (data.length = 26 → res.err = none) := by
  by_cases h : data.length = 26
  · exact ⟨_, ParseParticipantPosition_of_length data reg h, by simp [h], fun h' => absurd h h',
      fun _ => rfl⟩
  · exact ⟨_, ParseParticipantPosition_of_length_ne data reg h, by simp [h],
      fun _ => ⟨rfl, rfl⟩, fun h' => absurd h' h⟩

/-- C4, as stated, fails: decoding `sampleBuffer` leaves byte 4 of the
caller's buffer at 0 where it was 3 before the call. -/
theorem C4_counterexample :
    ∃ res, ParseParticipantPosition sampleBuffer Registry.empty = some res ∧
      res.data.getD 4 0 = 0 ∧ sampleBuffer.getD 4 0 = 3 ∧ res.data ≠ sampleBuffer :=
  ⟨_, ParseParticipantPosition_of_length sampleBuffer Registry.empty rfl, rfl, rfl, by decide⟩

/-- C4, amended. The decoder never changes the length of the caller's buffer
nor any byte other than bytes 3 and 4; a buffer that is not 26 bytes long is
left exactly as it was, and in a buffer of 26 bytes, bytes 3 and 4 are zero
after the call. -/
theorem C4_buffer_after_decode (data : List Byte) (reg : Registry) :
    ∃ res, ParseParticipantPosition data reg = some res ∧
      res.data.length = data.length ∧
      (∀ i, i ≠ 3 → i ≠ 4 → res.data[i]? = data[i]?) ∧
      (data.length ≠ 26 → res.data = data) ∧
      (data.length = 26 → res.data[3]? = some 0 ∧ res.data[4]? = some 0) := by
  by_cases h : data.length = 26
  · refine ⟨_, ParseParticipantPosition_of_length data reg h, by simp, ?_, fun h' => absurd h h',
      fun _ => ?_⟩
    · intro i h3 h4
      simp [List.getElem?_set, Ne.symm h3, Ne.symm h4]
    · simp [List.getElem?_set, h]
  · exact ⟨_, ParseParticipantPosition_of_length_ne data reg h, rfl, fun _ _ _ => rfl,
      fun _ => rfl, fun h' => absurd h' h⟩

/-- C5. The encoder's output is always 26 bytes long, with StockLocate
big-endian in bytes 1–2, TrackingNumber big-endian in bytes 3–4 and the low 48
bits of the nanosecond timestamp big-endian in bytes 5–10; the 64-bit write at
offset 3 followed by the overwrite of bytes 3–4 gives the same buffer as the
direct layout `BytesDirect`. -/
theorem C5_timestamp_overlap (tag : Byte) (r : ParticipantPosition) :
    (r.Bytes tag).length = 26 ∧
    ((r.Bytes tag).getD 1 0).val * 256 + ((r.Bytes tag).getD 2 0).val = r.StockLocate.val ∧
    ((r.Bytes tag).getD 3 0).val * 256 + ((r.Bytes tag).getD 4 0).val = r.TrackingNumber.val ∧
    readUint48 (r.Bytes tag) 5 = uint64 r.Timestamp % 2 ^ 48 ∧
    r.Bytes tag = r.BytesDirect tag := by
  refine ⟨Bytes_length tag r, ?_, ?_, Bytes_readUint48 tag r, ?_⟩
  · obtain ⟨m0, m1, m2, m3, k0, k1, k2, k3, k4, k5, k6, k7, -, -, e⟩ := Bytes_explicit tag r
    have := r.StockLocate.isLt
    rw [e]
    simp only [List.getD_cons_succ, List.getD_cons_zero, byte_val, Nat.shiftRight_eq_div_pow]
    omega
  · obtain ⟨m0, m1, m2, m3, k0, k1, k2, k3, k4, k5, k6, k7, -, -, e⟩ := Bytes_explicit tag r
    have := r.TrackingNumber.isLt
    rw [e]
    simp only [List.getD_cons_succ, List.getD_cons_zero, byte_val, Nat.shiftRight_eq_div_pow]
    omega
  · rw [Bytes_eq, BytesDirect_eq]
    rw [byte_shiftRight_mod _ 40 (by omega), byte_shiftRight_mod _ 32 (by omega),
      byte_shiftRight_mod _ 24 (by omega), byte_shiftRight_mod _ 16 (by omega),
      byte_shiftRight_mod _ 8 (by omega)]
    have := byte_shiftRight_mod (uint64 r.Timestamp) 0 (by omega)
    simp only [Nat.shiftRight_zero] at this
    rw [this]

/-- C6. For a record whose Mpid is at most 4 bytes and whose Stock is at most
8 bytes, bytes 11–14 of the encoding are Mpid followed by spaces up to 4
bytes, and bytes 15–22 are Stock followed by spaces up to 8 bytes. -/
theorem C6_identifier_padding (tag : Byte) (r : ParticipantPosition)
    (hm : r.Mpid.length ≤ 4) (hs : r.Stock.length ≤ 8) :
    ((r.Bytes tag).drop 11).take 4 = r.Mpid ++ List.replicate (4 - r.Mpid.length) 0x20 ∧
    ((r.Bytes tag).drop 15).take 8 = r.Stock ++ List.replicate (8 - r.Stock.length) 0x20 := by
  obtain ⟨m0, m1, m2, m3, k0, k1, k2, k3, k4, k5, k6, k7, e1, e2, e⟩ := Bytes_explicit tag r
  have h1 : padField 4 r.Mpid = r.Mpid ++ List.replicate (4 - r.Mpid.length) 0x20 := by
    simp only [padField, List.take_of_length_le hm]
  have h2 : padField 8 r.Stock = r.Stock ++ List.replicate (8 - r.Stock.length) 0x20 := by
    simp only [padField, List.take_of_length_le hs]
  rw [← h1, ← h2, e1, e2, e]
  exact ⟨rfl, rfl⟩

/-- C6 at `sampleRecord`. -/
theorem C6_identifier_padding_witness :
    sampleRecord.Mpid.length ≤ 4 ∧ sampleRecord.Stock.length ≤ 8 ∧
    ((sampleRecord.Bytes 0x4C).drop 11).take 4 =
      sampleRecord.Mpid ++ List.replicate (4 - sampleRecord.Mpid.length) 0x20 ∧
    ((sampleRecord.Bytes 0x4C).drop 15).take 8 =
      sampleRecord.Stock ++ List.replicate (8 - sampleRecord.Stock.length) 0x20 :=
  ⟨by decide, by decide, C6_identifier_padding 0x4C sampleRecord (by decide) (by decide)⟩

/-- C7. Byte 0 of the encoding is the message-type tag, the value `Type`
returns; byte 23 is 'Y' for a primary market maker and 'N' otherwise; byte 24
is the Mode tag and byte 25 the State tag. -/
theorem C7_single_byte_fields (tag : Byte) (r : ParticipantPosition) :
    (r.Bytes tag).getD 0 0 = tag ∧
    (r.Bytes tag).getD 0 0 = r.Type tag ∧
    (r.Bytes tag).getD 23 0 = (if r.PrimaryMM then 0x59 else 0x4E) ∧
    (r.Bytes tag).getD 24 0 = r.Mode ∧
    (r.Bytes tag).getD 25 0 = r.State := by
  obtain ⟨m0, m1, m2, m3, k0, k1, k2, k3, k4, k5, k6, k7, -, -, e⟩ := Bytes_explicit tag r
  rw [e]
  exact ⟨rfl, rfl, rfl, rfl, rfl⟩

/-- C8. On a buffer of 26 bytes the decoded timestamp is bytes 5 to 10 read as
a 48-bit big-endian unsigned integer; so it lies in `[0, 2^48)` and is the
same whatever bytes 3 and 4 hold. -/
theorem C8_timestamp_48 (data : List Byte) (reg : Registry) (h : data.length = 26) :
    ∃ res, ParseParticipantPosition data reg = some res ∧
      res.pp.Timestamp = (readUint48 data 5 : Int) ∧
      0 ≤ res.pp.Timestamp ∧ res.pp.Timestamp < 2 ^ 48 ∧
      ∀ x y : Byte, ∃ res', ParseParticipantPosition ((data.set 3 x).set 4 y) reg = some res' ∧
        res'.pp.Timestamp = res.pp.Timestamp := by
  refine ⟨_, ParseParticipantPosition_of_length data reg h, decodedRecord_Timestamp data, ?_, ?_,
    ?_⟩
  · rw [decodedRecord_Timestamp]; exact Int.natCast_nonneg _
  · rw [decodedRecord_Timestamp]; exact_mod_cast readUint48_lt data 5
  · intro x y
    refine ⟨_, ParseParticipantPosition_of_length _ reg (by simpa using h), ?_⟩
    rw [decodedRecord_Timestamp, decodedRecord_Timestamp]
    simp [readUint48, List.getD_eq_getElem?_getD, List.getElem?_set]

/-- C8 at `sampleBuffer`. -/
theorem C8_timestamp_48_witness :
    sampleBuffer.length = 26 ∧
    ∃ res, ParseParticipantPosition sampleBuffer Registry.empty = some res ∧
      res.pp.Timestamp = (readUint48 sampleBuffer 5 : Int) ∧
      0 ≤ res.pp.Timestamp ∧ res.pp.Timestamp < 2 ^ 48 ∧
      ∀ x y : Byte, ∃ res',
        ParseParticipantPosition ((sampleBuffer.set 3 x).set 4 y) Registry.empty = some res' ∧
        res'.pp.Timestamp = res.pp.Timestamp :=
  ⟨rfl, C8_timestamp_48 sampleBuffer Registry.empty rfl⟩

/-- C9. On a buffer of 26 bytes the decoded record has StockLocate equal to
bytes 1–2 big-endian, TrackingNumber equal to bytes 3–4 (as they were before
the call) big-endian, PrimaryMM true exactly when byte 23 is 'Y', Mode equal
to byte 24 and State equal to byte 25, whatever these bytes are. -/
theorem C9_fixed_fields (data : List Byte) (reg : Registry) (h : data.length = 26) :
    ∃ res, ParseParticipantPosition data reg = some res ∧
      res.pp.StockLocate.val = (data.getD 1 0).val * 256 + (data.getD 2 0).val ∧
      res.pp.TrackingNumber.val = (data.getD 3 0).val * 256 + (data.getD 4 0).val ∧
      (res.pp.PrimaryMM = true ↔ data.getD 23 0 = 0x59) ∧
      res.pp.Mode = data.getD 24 0 ∧
      res.pp.State = data.getD 25 0 := by
  refine ⟨_, ParseParticipantPosition_of_length data reg h, Uint16_val _ _, Uint16_val _ _, ?_,
    rfl, rfl⟩
  simp [decodedRecord]

/-- C9 at `sampleBuffer`. -/
theorem C9_fixed_fields_witness :
    sampleBuffer.length = 26 ∧
    ∃ res, ParseParticipantPosition sampleBuffer Registry.empty = some res ∧
      res.pp.StockLocate.val = (sampleBuffer.getD 1 0).val * 256 + (sampleBuffer.getD 2 0).val ∧
      res.pp.TrackingNumber.val =
        (sampleBuffer.getD 3 0).val * 256 + (sampleBuffer.getD 4 0).val ∧
      (res.pp.PrimaryMM = true ↔ sampleBuffer.getD 23 0 = 0x59) ∧
      res.pp.Mode = sampleBuffer.getD 24 0 ∧
      res.pp.State = sampleBuffer.getD 25 0 :=
  ⟨rfl, C9_fixed_fields sampleBuffer Registry.empty rfl⟩

/-- C10. On a buffer of 26 bytes the decoded Mpid is `TrimSpace` of bytes
11–14 and the decoded Stock `TrimSpace` of bytes 15–22: the field without a
whitespace-only prefix and a whitespace-only suffix.  So the Mpid has at most
4 bytes, the Stock at most 8, and neither begins or ends with whitespace
(a rune for which Go's `unicode.IsSpace` holds). -/
theorem C10_trimmed_identifiers (data : List Byte) (reg : Registry) (h : data.length = 26) :
    ∃ res, ParseParticipantPosition data reg = some res ∧
      res.pp.Mpid = TrimSpace ((data.drop 11).take 4) ∧
      res.pp.Stock = TrimSpace ((data.drop 15).take 8) ∧
      (∃ pre suf, (data.drop 11).take 4 = pre ++ res.pp.Mpid ++ suf ∧
        AllSpace pre ∧ AllSpace suf) ∧
      (∃ pre suf, (data.drop 15).take 8 = pre ++ res.pp.Stock ++ suf ∧
        AllSpace pre ∧ AllSpace suf) ∧
      res.pp.Mpid.length ≤ 4 ∧ res.pp.Stock.length ≤ 8 ∧
      leadingSpace res.pp.Mpid = false ∧ trailingSpace res.pp.Mpid = false ∧
      leadingSpace res.pp.Stock = false ∧ trailingSpace res.pp.Stock = false := by
  obtain ⟨p1, s1, e1, a1, a2, l1, t1⟩ := TrimSpace_spec ((data.drop 11).take 4)
  obtain ⟨p2, s2, e2, b1, b2, l2, t2⟩ := TrimSpace_spec ((data.drop 15).take 8)
  have n1 := TrimSpace_length_le ((data.drop 11).take 4)
  have n2 := TrimSpace_length_le ((data.drop 15).take 8)
  simp only [List.length_take, List.length_drop] at n1 n2
  exact ⟨_, ParseParticipantPosition_of_length data reg h, rfl, rfl, ⟨p1, s1, e1, a1, a2⟩,
    ⟨p2, s2, e2, b1, b2⟩, by show (TrimSpace _).length ≤ 4; omega,
    by show (TrimSpace _).length ≤ 8; omega, l1, t1, l2, t2⟩

/-- C10 at `paddedBuffer`. -/
theorem C10_trimmed_identifiers_witness :
    paddedBuffer.length = 26 ∧
    ∃ res, ParseParticipantPosition paddedBuffer Registry.empty = some res ∧
      res.pp.Mpid = TrimSpace ((paddedBuffer.drop 11).take 4) ∧
      res.pp.Stock = TrimSpace ((paddedBuffer.drop 15).take 8) ∧
      (∃ pre suf, (paddedBuffer.drop 11).take 4 = pre ++ res.pp.Mpid ++ suf ∧
        AllSpace pre ∧ AllSpace suf) ∧
      (∃ pre suf, (paddedBuffer.drop 15).take 8 = pre ++ res.pp.Stock ++ suf ∧
        AllSpace pre ∧ AllSpace suf) ∧
      res.pp.Mpid.length ≤ 4 ∧ res.pp.Stock.length ≤ 8 ∧
      leadingSpace res.pp.Mpid = false ∧ trailingSpace res.pp.Mpid = false ∧
      leadingSpace res.pp.Stock = false ∧ trailingSpace res.pp.Stock = false :=
  ⟨rfl, C10_trimmed_identifiers paddedBuffer Registry.empty rfl⟩

/-- C11. From a registry with no history for the identifier `m`, a run of
calls of the decoder, whatever other buffers are decoded in between, leaves
under `m` one entry for each buffer of 26 bytes whose trimmed Mpid is `m`: each
of those calls succeeds and returns a record with Mpid `m`, the history is the
list of the records those calls returned, in call order, and its length is
the number `N` of those buffers. -/
theorem C11_registry_accumulation (bufs : List (List Byte)) (reg : Registry) (m : List Byte)
    (h0 : reg.get m = []) :
    ∃ results reg', parseAll bufs reg = some (results, reg') ∧
      List.Forall₂ (fun b r => ∃ regb, ParseParticipantPosition b regb = some r) bufs results ∧
      (∀ br ∈ List.zip bufs results, hasMpid m br.1 = true →
        br.2.err = none ∧ br.2.pp.Mpid = m) ∧
      reg'.get m =
        ((List.zip bufs results).filter (fun br => hasMpid m br.1)).map (fun br => br.2.pp) ∧
      (reg'.get m).length = (bufs.filter (hasMpid m)).length := by
  obtain ⟨results, reg', e1, e2, e3⟩ := parseAll_run bufs reg
  have e : reg'.get m =
      ((List.zip bufs results).filter (fun br => hasMpid m br.1)).map (fun br => br.2.pp) := by
    rw [e3 m, h0, List.nil_append]
  obtain ⟨hl, hz⟩ := List.forall₂_iff_zip.mp e2
  refine ⟨results, reg', e1, e2, ?_, e, ?_⟩
  · intro br hbr hm
    obtain ⟨regb, hr⟩ := hz (a := br.1) (b := br.2) hbr
    simp only [hasMpid, Bool.and_eq_true, decide_eq_true_eq] at hm
    obtain ⟨g1, g2⟩ := (ParseParticipantPosition_returns _ _ _ hr).1 hm.1
    refine ⟨g1, ?_⟩
    rw [g2]
    exact hm.2
  · rw [e, List.length_map, filter_zip_length (hasMpid m) bufs results hl]

/-- C11 at `sampleRun`, for the identifier "ABC", from the empty registry: two
of the three buffers are filed under "ABC", and the history is the record of
the examples twice. -/
theorem C11_registry_accumulation_witness :
    Registry.empty.get [0x41, 0x42, 0x43] = [] ∧
    (sampleRun.filter (hasMpid [0x41, 0x42, 0x43])).length = 2 ∧
    ∃ results reg', parseAll sampleRun Registry.empty = some (results, reg') ∧
      List.Forall₂ (fun b r => ∃ regb, ParseParticipantPosition b regb = some r)
        sampleRun results ∧
      (∀ br ∈ List.zip sampleRun results, hasMpid [0x41, 0x42, 0x43] br.1 = true →
        br.2.err = none ∧ br.2.pp.Mpid = [0x41, 0x42, 0x43]) ∧
      reg'.get [0x41, 0x42, 0x43] =
        ((List.zip sampleRun results).filter
          (fun br => hasMpid [0x41, 0x42, 0x43] br.1)).map (fun br => br.2.pp) ∧
      (reg'.get [0x41, 0x42, 0x43]).length =
        (sampleRun.filter (hasMpid [0x41, 0x42, 0x43])).length ∧
      reg'.get [0x41, 0x42, 0x43] = [sampleRecord, sampleRecord] := by
  obtain ⟨results, reg', h1, h2, h3, h4, h5⟩ :=
    C11_registry_accumulation sampleRun Registry.empty [0x41, 0x42, 0x43] rfl
  refine ⟨rfl, by decide, results, reg', h1, h2, h3, h4, h5, ?_⟩
  have hs : decodedRecord sampleBuffer = sampleRecord := by decide
  have t1 : hasMpid [0x41, 0x42, 0x43] sampleBuffer = true := by decide
  have t2 : hasMpid [0x41, 0x42, 0x43] paddedBuffer = false := by decide
  rw [h4]
  unfold sampleRun at h2 ⊢
  cases h2 with
  | cons a1 h2 =>
    cases h2 with
    | cons a2 h2 =>
      cases h2 with
      | cons a3 h2 =>
        cases h2
        obtain ⟨reg1, a1⟩ := a1
        obtain ⟨reg3, a3⟩ := a3
        have p1 := ((ParseParticipantPosition_returns _ _ _ a1).1 rfl).2
        have p3 := ((ParseParticipantPosition_returns _ _ _ a3).1 rfl).2
        simp only [List.zip_cons_cons, List.zip_nil_right, List.filter_cons, t1, t2, if_true,
          List.filter_nil, List.map_cons, List.map_nil, p1, p3, hs, Bool.false_eq_true,
          if_false]

/-- C12. The registry update is append-on-success: a call on a buffer that is
not 26 bytes long fails and leaves the registry as it was; a call on a buffer
of 26 bytes succeeds with a record `pp`, binds `pp.Mpid` to its old history
followed by `pp`, and leaves every other identifier as it was.  So the
history of every identifier before a call is a prefix of its history after
the call. -/
theorem C12_append_on_success (data : List Byte) (reg : Registry) :
    ∃ res, ParseParticipantPosition data reg = some res ∧
      (data.length ≠ 26 → res.err ≠ none ∧ res.MarketParticipants = reg) ∧
      (data.length = 26 → res.err = none ∧
        res.MarketParticipants res.pp.Mpid = some (reg.get res.pp.Mpid ++ [res.pp]) ∧
        ∀ k, k ≠ res.pp.Mpid → res.MarketParticipants k = reg k) ∧
      ∀ k, reg.get k <+: res.MarketParticipants.get k := by
  obtain ⟨res, h1, h2⟩ := ParseParticipantPosition_step data reg
  refine ⟨res, h1, ?_⟩
  rcases h2 with ⟨g1, g2, -, g4⟩ | ⟨g1, g2, -, g4⟩
  · refine ⟨fun _ => ⟨g2, g4⟩, fun h => absurd h g1, fun k => ?_⟩
    rw [g4]
  · refine ⟨fun h => absurd g1 h, fun _ => ⟨g2, ?_, fun k hk => ?_⟩, fun k => ?_⟩
    · rw [g4]; simp [Registry.put]
    · rw [g4]; simp [Registry.put, hk]
    · rw [g4, Registry_get_put]
      by_cases hk : k = res.pp.Mpid
      · rw [if_pos hk, hk]; exact List.prefix_append _ _
      · rw [if_neg hk]

/-- C13. The record of the literal scenario is encoded, under any tag, as the
tag, `00 07`, `00 03`, `00 00 07 5B CD 15`, "ABC ", "ZVZZT   ", 'Y', 'N', 'A';
and that buffer is decoded, without error, as the record. -/
theorem C13_literal_scenario (tag : Byte) (reg : Registry) :
    sampleRecord.Bytes tag =
      [tag, 0x00, 0x07, 0x00, 0x03, 0x00, 0x00, 0x07, 0x5B, 0xCD, 0x15,
        0x41, 0x42, 0x43, 0x20, 0x5A, 0x56, 0x5A, 0x5A, 0x54, 0x20, 0x20, 0x20,
        0x59, 0x4E, 0x41] ∧
    ∃ res, ParseParticipantPosition (sampleRecord.Bytes tag) reg = some res ∧
      res.err = none ∧ res.pp = sampleRecord := by
  have e : sampleRecord.Bytes tag =
      [tag, 0x00, 0x07, 0x00, 0x03, 0x00, 0x00, 0x07, 0x5B, 0xCD, 0x15,
        0x41, 0x42, 0x43, 0x20, 0x5A, 0x56, 0x5A, 0x5A, 0x54, 0x20, 0x20, 0x20,
        0x59, 0x4E, 0x41] := by
    rw [Bytes_eq]
    have e1 : padField 4 sampleRecord.Mpid = [0x41, 0x42, 0x43, 0x20] := by decide
    have e2 : padField 8 sampleRecord.Stock =
        [0x5A, 0x56, 0x5A, 0x5A, 0x54, 0x20, 0x20, 0x20] := by decide
    rw [e1, e2]
    rfl
  refine ⟨e, _, ParseParticipantPosition_of_length _ reg (Bytes_length tag sampleRecord), rfl, ?_⟩
  show decodedRecord (sampleRecord.Bytes tag) = sampleRecord
  rw [decodedRecord_Bytes]
  decide

/-- C14. `MMMode.String` renders 'N', 'P', 'S', 'R' and 'L' as "Normal",
"Passive", "Syndicate", "Pre-Syndicate" and "Penalty", and every other byte,
251 values in all, as "Unknown MMMode"; a buffer of 26 bytes whose byte 24 is
'Z' is decoded without error, with Mode 'Z', which renders as
"Unknown MMMode". -/
theorem C14_mode_display :
    MMMode.String 0x4E = "Normal" ∧ MMMode.String 0x50 = "Passive" ∧
    MMMode.String 0x53 = "Syndicate" ∧ MMMode.String 0x52 = "Pre-Syndicate" ∧
    MMMode.String 0x4C = "Penalty" ∧
    (∀ m : Byte, m ≠ 0x4E → m ≠ 0x50 → m ≠ 0x53 → m ≠ 0x52 → m ≠ 0x4C →
      MMMode.String m = "Unknown MMMode") ∧
    (Finset.univ.filter (fun m : Byte => MMMode.String m = "Unknown MMMode")).card = 251 ∧
    (∀ (data : List Byte) (reg : Registry), data.length = 26 → data.getD 24 0 = 0x5A →
      ∃ res, ParseParticipantPosition data reg = some res ∧ res.err = none ∧
        res.pp.Mode = 0x5A ∧ MMMode.String res.pp.Mode = "Unknown MMMode") := by
  refine ⟨by decide, by decide, by decide, by decide, by decide, ?_, ?_, ?_⟩
  · intro m h1 h2 h3 h4 h5
    simp only [MMMode.String, MMMODE_NORMAL, MMMODE_PASSIVE, MMMODE_SYNDICATE,
      MMMODE_PRE_SYNDICATE, MMMODE_PENALTY, if_neg h1, if_neg h2, if_neg h3, if_neg h4,
      if_neg h5]
  · exact MMMode_unknown_card
  · intro data reg h hz
    refine ⟨_, ParseParticipantPosition_of_length data reg h, rfl, hz, ?_⟩
    show MMMode.String (data.getD 24 0) = "Unknown MMMode"
    rw [hz]
    decide

/-- C15. `MMState.String` renders 'A', 'E', 'W', 'S' and 'D' as "Active",
"Excused/Withdrawn", "Withdrawn", "Suspended" and "Deleted", and every other
byte as the fallback "Unknown MMState"; the five names are pairwise distinct
and none of them is the fallback. -/
theorem C15_state_display :
    MMState.String 0x41 = "Active" ∧ MMState.String 0x45 = "Excused/Withdrawn" ∧
    MMState.String 0x57 = "Withdrawn" ∧ MMState.String 0x53 = "Suspended" ∧
    MMState.String 0x44 = "Deleted" ∧
    (∀ s : Byte, s ≠ 0x41 → s ≠ 0x45 → s ≠ 0x57 → s ≠ 0x53 → s ≠ 0x44 →
      MMState.String s = "Unknown MMState") ∧
    ["Active", "Excused/Withdrawn", "Withdrawn", "Suspended", "Deleted",
      "Unknown MMState"].Nodup := by
  refine ⟨by decide, by decide, by decide, by decide, by decide, ?_, by decide⟩
  intro s h1 h2 h3 h4 h5
  simp only [MMState.String, MMSTATE_ACTIVE, MMSTATE_EXCUSED, MMSTATE_WITHDRAWN,
    MMSTATE_SUSPENDED, MMSTATE_DELETED, if_neg h1, if_neg h2, if_neg h3, if_neg h4,
    if_neg h5]

/-- C16. Whatever the record (any Mode and State byte, any Mpid and Stock of
any length, any timestamp), decoding its encoding succeeds and gives back its
StockLocate, TrackingNumber, PrimaryMM, Mode and State. -/
theorem C16_non_string_fields (tag : Byte) (r : ParticipantPosition) (reg : Registry) :
    ∃ res, ParseParticipantPosition (r.Bytes tag) reg = some res ∧ res.err = none ∧
      res.pp.StockLocate = r.StockLocate ∧ res.pp.TrackingNumber = r.TrackingNumber ∧
      res.pp.PrimaryMM = r.PrimaryMM ∧ res.pp.Mode = r.Mode ∧ res.pp.State = r.State := by
  refine ⟨_, ParseParticipantPosition_of_length _ reg (Bytes_length tag r), rfl, ?_⟩
  show (decodedRecord (r.Bytes tag)).StockLocate = _ ∧ (decodedRecord (r.Bytes tag)).TrackingNumber = _ ∧
    (decodedRecord (r.Bytes tag)).PrimaryMM = _ ∧ (decodedRecord (r.Bytes tag)).Mode = _ ∧
    (decodedRecord (r.Bytes tag)).State = _
  rw [decodedRecord_Bytes]
  exact ⟨rfl, rfl, rfl, rfl, rfl⟩

/-- C17. The record decoded from any buffer of 26 bytes is a fixed point of
the round trip: encoding it and decoding the encoding gives it back, equal in
every field. -/
theorem C17_decoded_fixed_point (tag : Byte) (b : List Byte) (reg reg' : Registry)
    (h : b.length = 26) :
    ∃ res, ParseParticipantPosition b reg = some res ∧
      ∃ res', ParseParticipantPosition (res.pp.Bytes tag) reg' = some res' ∧
        res'.err = none ∧ res'.pp = res.pp := by
  obtain ⟨c1, c2, c3, c4, c5, c6, c7, c8⟩ := decodedRecord_canonical b
  exact ⟨_, ParseParticipantPosition_of_length b reg h, _,
    ParseParticipantPosition_of_length _ reg' (Bytes_length tag _), rfl,
    decodedRecord_Bytes_of_canonical tag _ c1 c2 c3 c4 c5 c6 c7 c8⟩

/-- C17 at `paddedBuffer`. -/
theorem C17_decoded_fixed_point_witness :
    paddedBuffer.length = 26 ∧
    ∃ res, ParseParticipantPosition paddedBuffer Registry.empty = some res ∧
      ∃ res', ParseParticipantPosition (res.pp.Bytes 0x4C) Registry.empty = some res' ∧
        res'.err = none ∧ res'.pp = res.pp :=
  ⟨rfl, C17_decoded_fixed_point 0x4C paddedBuffer Registry.empty Registry.empty rfl⟩

/-- C18. Encode undoes decode on canonical buffers: for a buffer of 26 bytes
whose byte 0 is the tag, whose byte 23 is 'Y' or 'N', and whose fields 11–14
and 15–22 are each a string that neither begins nor ends with whitespace
followed by spaces only, the encoding of the decoded record is the buffer as
it was before the call. -/
theorem C18_encode_undoes_decode (tag : Byte) (b : List Byte) (reg : Registry)
    (h : b.length = 26) (h0 : b.getD 0 0 = tag)
    (h23 : b.getD 23 0 = 0x59 ∨ b.getD 23 0 = 0x4E)
    (s1 : List Byte) (k1 : Nat) (hm : (b.drop 11).take 4 = s1 ++ List.replicate k1 0x20)
    (hml : leadingSpace s1 = false) (hmt : trailingSpace s1 = false)
    (s2 : List Byte) (k2 : Nat) (hs : (b.drop 15).take 8 = s2 ++ List.replicate k2 0x20)
    (hsl : leadingSpace s2 = false) (hst : trailingSpace s2 = false) :
    ∃ res, ParseParticipantPosition b reg = some res ∧ res.err = none ∧
      res.pp.Bytes tag = b := by
  refine ⟨_, ParseParticipantPosition_of_length b reg h, rfl, ?_⟩
  show (decodedRecord b).Bytes tag = b
  have l1 : ((b.drop 11).take 4).length = 4 := by
    simp only [List.length_take, List.length_drop, h]; rfl
  have l2 : ((b.drop 15).take 8).length = 8 := by
    simp only [List.length_take, List.length_drop, h]; rfl
  have e1 : padField 4 (TrimSpace ((b.drop 11).take 4)) = (b.drop 11).take 4 := by
    rw [hm, TrimSpace_append_spaces s1 hml hmt, ← hm]
    exact padField_of_append_spaces 4 _ s1 k1 hm l1
  have e2 : padField 8 (TrimSpace ((b.drop 15).take 8)) = (b.drop 15).take 8 := by
    rw [hs, TrimSpace_append_spaces s2 hsl hst, ← hs]
    exact padField_of_append_spaces 8 _ s2 k2 hs l2
  have e3 : (if b.getD 23 0 = 0x59 then (0x59 : Byte) else 0x4E) = b.getD 23 0 := by
    rcases h23 with h23 | h23
    · rw [if_pos h23, h23]
    · rw [h23]; decide
  rw [Bytes_decodedRecord, e1, e2, e3, ← h0]
  exact (buffer_split b h).symm

/-- C18 at `sampleBuffer`, whose fields are "ABC" and "ZVZZT" followed by one
and three spaces. -/
theorem C18_encode_undoes_decode_witness :
    (sampleBuffer.length = 26 ∧ sampleBuffer.getD 0 0 = 0x4C ∧
      (sampleBuffer.getD 23 0 = 0x59 ∨ sampleBuffer.getD 23 0 = 0x4E) ∧
      (sampleBuffer.drop 11).take 4 = [0x41, 0x42, 0x43] ++ List.replicate 1 0x20 ∧
      leadingSpace [0x41, 0x42, 0x43] = false ∧ trailingSpace [0x41, 0x42, 0x43] = false ∧
      (sampleBuffer.drop 15).take 8 =
        [0x5A, 0x56, 0x5A, 0x5A, 0x54] ++ List.replicate 3 0x20 ∧
      leadingSpace [0x5A, 0x56, 0x5A, 0x5A, 0x54] = false ∧
      trailingSpace [0x5A, 0x56, 0x5A, 0x5A, 0x54] = false) ∧
    ∃ res, ParseParticipantPosition sampleBuffer Registry.empty = some res ∧ res.err = none ∧
      res.pp.Bytes 0x4C = sampleBuffer :=
  ⟨⟨by decide, by decide, by decide, by decide, by decide, by decide, by decide, by decide,
      by decide⟩,
    C18_encode_undoes_decode 0x4C sampleBuffer Registry.empty (by decide) (by decide)
      (by decide) [0x41, 0x42, 0x43] 1 (by decide) (by decide) (by decide)
      [0x5A, 0x56, 0x5A, 0x5A, 0x54] 3 (by decide) (by decide) (by decide)⟩

/-- C19, as stated, fails: `shortLongRecord` has a Stock longer than 8 bytes,
and bytes 11–14 of its encoding are "AB  ", not the first bytes "AB" of its
Mpid. -/
theorem C19_counterexample :
    (shortLongRecord.Mpid.length > 4 ∨ shortLongRecord.Stock.length > 8) ∧
    ((shortLongRecord.Bytes 0x4C).drop 11).take 4 = [0x41, 0x42, 0x20, 0x20] ∧
    shortLongRecord.Mpid.take 4 = [0x41, 0x42] ∧
    ((shortLongRecord.Bytes 0x4C).drop 11).take 4 ≠ shortLongRecord.Mpid.take 4 := by
  decide

/-- C19, amended. The encoding is always 26 bytes long; when Mpid is longer
than 4 bytes, bytes 11–14 are exactly its first 4 bytes; when Stock is longer
than 8 bytes, bytes 15–22 are exactly its first 8 bytes; and the encoding is,
byte for byte, the encoding of the same record with Mpid and Stock replaced by
their first 4 and first 8 bytes. -/
theorem C19_overlong_identifiers (tag : Byte) (r : ParticipantPosition) :
    (r.Bytes tag).length = 26 ∧
    (4 < r.Mpid.length → ((r.Bytes tag).drop 11).take 4 = r.Mpid.take 4) ∧
    (8 < r.Stock.length → ((r.Bytes tag).drop 15).take 8 = r.Stock.take 8) ∧
    r.Bytes tag =
      ({ r with Mpid := r.Mpid.take 4, Stock := r.Stock.take 8 } : ParticipantPosition).Bytes
        tag := by
  obtain ⟨m0, m1, m2, m3, k0, k1, k2, k3, k4, k5, k6, k7, e1, e2, e⟩ := Bytes_explicit tag r
  refine ⟨Bytes_length tag r, fun hm => ?_, fun hs => ?_, ?_⟩
  · have : padField 4 r.Mpid = r.Mpid.take 4 := by
      simp only [padField, show 4 - r.Mpid.length = 0 by omega, List.replicate_zero,
        List.append_nil]
    rw [← this, e1, e]; rfl
  · have : padField 8 r.Stock = r.Stock.take 8 := by
      simp only [padField, show 8 - r.Stock.length = 0 by omega, List.replicate_zero,
        List.append_nil]
    rw [← this, e2, e]; rfl
  · rw [Bytes_eq, Bytes_eq]
    simp only [padField_take]

/-- C20. From the empty registry, after any run of calls of the decoder,
successful or failing, every key is bound to a non-empty history, and every
record stored under a key `k` has Mpid `k`, a timestamp in `[0, 2^48)`, and an
Mpid and a Stock that neither begin nor end with whitespace. -/
theorem C20_registry_key_invariant (bufs : List (List Byte)) :
    ∃ results reg', parseAll bufs Registry.empty = some (results, reg') ∧
      ∀ k h, reg' k = some h →
        h ≠ [] ∧
        ∀ p ∈ h, p.Mpid = k ∧ 0 ≤ p.Timestamp ∧ p.Timestamp < 2 ^ 48 ∧
          leadingSpace p.Mpid = false ∧ trailingSpace p.Mpid = false ∧
          leadingSpace p.Stock = false ∧ trailingSpace p.Stock = false :=
  RegistryInv_parseAll bufs Registry.empty RegistryInv_empty

end Itch
